import Mathlib

/-!
Shallow embedding of the `forprompt` Python SDK
(`src/packages/sdk-python/forprompt/`): the PII redaction engine
(`pii.py`), the retrying request executor and prompt fetch service
(`client.py`), and the trace logger's payload construction (`logger.py`).

Modelling notes.
* Text is `List Char` / `String`.  The regular expressions of `pii.py` use
  only explicit ASCII character classes plus `\b`, `\s` and `\w`; the last
  two are modelled with their ASCII meaning.
* The seven fixed regexes are translated into a small regex AST (`Reg`)
  whose backtracking matcher `matchEnds` lists the candidate match lengths
  in exactly Python's backtracking preference order (alternation
  left-first, greedy quantifiers longest-first), so that
  `(matchEnds r pw s).head?` is the match `re` chooses at a position.
  `re.findall` / `re.sub` scan left to right, retrying at the next
  character after a failure and continuing after the end of a match.
  None of the seven patterns can match the empty string.
* Network traffic is abstracted by a transport function
  `Nat → HttpAttempt` giving the outcome of each attempt; `time.sleep`
  is modelled by counting backoff sleeps (the slept duration, which uses
  a random jitter, is not modelled).  Exceptions are modelled by explicit
  result constructors; exceptions other than `ForPromptError` (JSON decode
  errors on a 2xx body, `KeyError` in `Prompt.from_dict`) are `pyError`.
-/

/-! ## Character classes (ASCII, as written in the regexes of pii.py) -/

def isAsciiAlphaCh (c : Char) : Bool :=
  ('a' ≤ c && c ≤ 'z') || ('A' ≤ c && c ≤ 'Z')

def isAsciiDigitCh (c : Char) : Bool :=
  '0' ≤ c && c ≤ '9'

def isHexCh (c : Char) : Bool :=
  isAsciiDigitCh c || ('a' ≤ c && c ≤ 'f') || ('A' ≤ c && c ≤ 'F')

/-- Python `\s`, ASCII part: space, tab, newline, vertical tab, form feed,
carriage return. -/
def isSpaceCh (c : Char) : Bool :=
  c = ' ' || c = '\t' || c = '\n' || c = '\x0b' || c = '\x0c' || c = '\r'

/-- Python `\w` (ASCII): letters, digits and underscore.  Used only by `\b`. -/
def isWordCh (c : Char) : Bool :=
  isAsciiAlphaCh c || isAsciiDigitCh c || c = '_'

/-- `[a-zA-Z0-9._%+-]` (the local part of the email pattern). -/
def emailLocalCh (c : Char) : Bool :=
  isAsciiAlphaCh c || isAsciiDigitCh c || c = '.' || c = '_' || c = '%' || c = '+' || c = '-'

/-- `[a-zA-Z0-9.-]` (the domain part of the email pattern). -/
def emailDomCh (c : Char) : Bool :=
  isAsciiAlphaCh c || isAsciiDigitCh c || c = '.' || c = '-'

/-- `[-.\s]` (the separators of the phone pattern). -/
def phoneSepCh (c : Char) : Bool :=
  c = '-' || c = '.' || isSpaceCh c

/-- `[-\s]` (the separators of the ssn / formatted credit card patterns). -/
def dashSpaceCh (c : Char) : Bool :=
  c = '-' || isSpaceCh c

/-! ## A small regex AST and its backtracking matcher -/

/-- Regex AST covering the constructs used by the seven patterns of
`pii.py`: single-character classes, sequencing, alternation, greedy `?`,
`\b`, and greedy counted repetition `{lo,hi}` / `{lo,}` of a character
class. -/
inductive Reg : Type
  | cls (p : Char → Bool)
  | seq (a b : Reg)
  | alt (a b : Reg)
  | opt (a : Reg)
  | bnd
  | repCls (lo : Nat) (hi : Option Nat) (p : Char → Bool)

/-- Wordness of the first character of `s` (`false` at the end of text). -/
def headW (s : List Char) : Bool :=
  match s with
  | [] => false
  | c :: _ => isWordCh c

/-- Wordness of the character just before position `n` of `s`, where `pw`
is the wordness of the character just before `s` itself. -/
def wAt (pw : Bool) (s : List Char) (n : Nat) : Bool :=
  if n = 0 then pw else headW (s.drop (n - 1))

/-- Length of the maximal prefix of `s` whose characters satisfy `p`. -/
def runLen (p : Char → Bool) (s : List Char) : Nat :=
  (s.takeWhile p).length

/-- The cap a `{lo,hi}` quantifier puts on the usable run length. -/
def repCap (hi : Option Nat) (n : Nat) : Nat :=
  match hi with
  | some h => min n h
  | none => n

/-- The lengths a greedy `{lo,hi}` repetition of the class `p` may consume
at the start of `s`, longest first. -/
def repEnds (lo : Nat) (hi : Option Nat) (p : Char → Bool) (s : List Char) : List Nat :=
  let m := repCap hi (runLen p s)
  if lo ≤ m then (List.range (m + 1 - lo)).map (fun k => m - k) else []

/-- All lengths a match of `r` at the start of `s` may consume, in
Python's backtracking preference order (first element = the match `re`
chooses).  `pw` is the wordness of the character just before `s`. -/
def matchEnds : Reg → Bool → List Char → List Nat
  | .cls p, _, s =>
    match s with
    | [] => []
    | c :: _ => if p c then [1] else []
  | .seq a b, pw, s =>
    (matchEnds a pw s).flatMap fun la =>
      (matchEnds b (wAt pw s la) (s.drop la)).map (· + la)
  | .alt a b, pw, s => matchEnds a pw s ++ matchEnds b pw s
  | .opt a, pw, s => matchEnds a pw s ++ [0]
  | .bnd, pw, s => if pw != headW s then [0] else []
  | .repCls lo hi p, _, s => repEnds lo hi p s

/-- The match `re` chooses at the start of `s`, if any. -/
def reFirst (r : Reg) (pw : Bool) (s : List Char) : Option Nat :=
  (matchEnds r pw s).head?

/-- `pattern.sub(T, s)`: replace each non-overlapping leftmost match with
`T`.  (The seven patterns never match the empty string, so the zero-length
case never fires; it is treated as no match.)  The scan consumes at least
one character per step, so `fuel ≥ s.length` makes the fuel irrelevant;
it exists to keep the recursion structural. -/
def reSubGo (r : Reg) (T : List Char) : Nat → Bool → List Char → List Char
  | _, _, [] => []
  | 0, _, s => s
  | fuel + 1, pw, c :: rest =>
    match reFirst r pw (c :: rest) with
    | some (l + 1) => T ++ reSubGo r T fuel (wAt pw (c :: rest) (l + 1)) (rest.drop l)
    | _ => c :: reSubGo r T fuel (isWordCh c) rest

/-- `len(pattern.findall(s))`: the number of non-overlapping leftmost
matches (all groups in the patterns are non-capturing). -/
def reCountGo (r : Reg) : Nat → Bool → List Char → Nat
  | _, _, [] => 0
  | 0, _, _ => 0
  | fuel + 1, pw, c :: rest =>
    match reFirst r pw (c :: rest) with
    | some (l + 1) => 1 + reCountGo r fuel (wAt pw (c :: rest) (l + 1)) (rest.drop l)
    | _ => reCountGo r fuel (isWordCh c) rest

/-- `pattern.search(s) is not None`. -/
def reHasMatch (r : Reg) : Bool → List Char → Bool
  | pw, [] => !(matchEnds r pw []).isEmpty
  | pw, c :: rest => !(matchEnds r pw (c :: rest)).isEmpty || reHasMatch r (isWordCh c) rest

/-- Substitution over a whole text (text start has no preceding character). -/
def reSub (r : Reg) (T : List Char) (s : List Char) : List Char :=
  reSubGo r T s.length false s

/-- Match count over a whole text. -/
def reCount (r : Reg) (s : List Char) : Nat :=
  reCountGo r s.length false s

/-- Search over a whole text. -/
def reSearch (r : Reg) (s : List Char) : Bool :=
  reHasMatch r false s

/-! ## The seven PII patterns (pii.py, PII_PATTERNS, in catalog order) -/

/-- Helper: a single known character. -/
def chr (c : Char) : Reg := .cls (· = c)

/-- Helper: `{n}` repetition of a class. -/
def repN (n : Nat) (p : Char → Bool) : Reg := .repCls n (some n) p

/-- `[a-zA-Z0-9._%+-]+@[a-zA-Z0-9.-]+\.[a-zA-Z]{2,}` -/
def emailReg : Reg :=
  .seq (.repCls 1 none emailLocalCh)
    (.seq (chr '@')
      (.seq (.repCls 1 none emailDomCh)
        (.seq (chr '.') (.repCls 2 none isAsciiAlphaCh))))

/-- `(?:\+?1[-.\s]?)?\(?[0-9]{3}\)?[-.\s]?[0-9]{3}[-.\s]?[0-9]{4}` -/
def phoneReg : Reg :=
  .seq (.opt (.seq (.opt (chr '+')) (.seq (chr '1') (.opt (.cls phoneSepCh)))))
    (.seq (.opt (chr '('))
      (.seq (repN 3 isAsciiDigitCh)
        (.seq (.opt (chr ')'))
          (.seq (.opt (.cls phoneSepCh))
            (.seq (repN 3 isAsciiDigitCh)
              (.seq (.opt (.cls phoneSepCh)) (repN 4 isAsciiDigitCh)))))))

/-- The body of `\b[0-9]{3}[-\s]?[0-9]{2}[-\s]?[0-9]{4}\b` between the two
word boundaries. -/
def ssnCore : Reg :=
  .seq (repN 3 isAsciiDigitCh)
    (.seq (.opt (.cls dashSpaceCh))
      (.seq (repN 2 isAsciiDigitCh)
        (.seq (.opt (.cls dashSpaceCh)) (repN 4 isAsciiDigitCh))))

def ssnReg : Reg := .seq .bnd (.seq ssnCore .bnd)

/-- The body of the unformatted credit card pattern
`\b(?:4[0-9]{12}(?:[0-9]{3})?|5[1-5][0-9]{14}|3[47][0-9]{13}|6(?:011|5[0-9][0-9])[0-9]{12})\b`. -/
def ccCore : Reg :=
  .alt (.seq (chr '4') (.seq (repN 12 isAsciiDigitCh) (.opt (repN 3 isAsciiDigitCh))))
    (.alt (.seq (chr '5') (.seq (.cls fun c => '1' ≤ c && c ≤ '5') (repN 14 isAsciiDigitCh)))
      (.alt (.seq (chr '3') (.seq (.cls fun c => c = '4' || c = '7') (repN 13 isAsciiDigitCh)))
        (.seq (chr '6')
          (.seq (.alt (.seq (chr '0') (.seq (chr '1') (chr '1')))
                      (.seq (chr '5') (repN 2 isAsciiDigitCh)))
            (repN 12 isAsciiDigitCh)))))

def ccReg : Reg := .seq .bnd (.seq ccCore .bnd)

/-- The body of the formatted credit card pattern
`\b(?:4[0-9]{3}|5[1-5][0-9]{2}|3[47][0-9]{2}|6(?:011|5[0-9]{2}))[-\s]?[0-9]{4}[-\s]?[0-9]{4}[-\s]?[0-9]{4}\b`. -/
def ccfCore : Reg :=
  .seq (.alt (.seq (chr '4') (repN 3 isAsciiDigitCh))
         (.alt (.seq (chr '5') (.seq (.cls fun c => '1' ≤ c && c ≤ '5') (repN 2 isAsciiDigitCh)))
           (.alt (.seq (chr '3') (.seq (.cls fun c => c = '4' || c = '7') (repN 2 isAsciiDigitCh)))
             (.seq (chr '6') (.alt (.seq (chr '0') (.seq (chr '1') (chr '1')))
                                   (.seq (chr '5') (repN 2 isAsciiDigitCh)))))))
    (.seq (.opt (.cls dashSpaceCh))
      (.seq (repN 4 isAsciiDigitCh)
        (.seq (.opt (.cls dashSpaceCh))
          (.seq (repN 4 isAsciiDigitCh)
            (.seq (.opt (.cls dashSpaceCh)) (repN 4 isAsciiDigitCh))))))

def ccfReg : Reg := .seq .bnd (.seq ccfCore .bnd)

/-- The body of `\b(?:[0-9]{1,3}\.){3}[0-9]{1,3}\b`. -/
def ipv4Core : Reg :=
  .seq (.seq (.repCls 1 (some 3) isAsciiDigitCh) (chr '.'))
    (.seq (.seq (.repCls 1 (some 3) isAsciiDigitCh) (chr '.'))
      (.seq (.seq (.repCls 1 (some 3) isAsciiDigitCh) (chr '.'))
        (.repCls 1 (some 3) isAsciiDigitCh)))

def ipv4Reg : Reg := .seq .bnd (.seq ipv4Core .bnd)

/-- One `[0-9a-fA-F]{1,4}:` group of the IPv6 pattern. -/
def hexGrp : Reg := .seq (.repCls 1 (some 4) isHexCh) (chr ':')

/-- The body of `\b(?:[0-9a-fA-F]{1,4}:){7}[0-9a-fA-F]{1,4}\b`. -/
def ipv6Core : Reg :=
  .seq hexGrp (.seq hexGrp (.seq hexGrp (.seq hexGrp
    (.seq hexGrp (.seq hexGrp (.seq hexGrp (.repCls 1 (some 4) isHexCh)))))))

def ipv6Reg : Reg := .seq .bnd (.seq ipv6Core .bnd)

/-- One entry of the pattern catalog: `(name, pattern, replacement)`. -/
structure PiiPattern where
  name : String
  reg : Reg
  repl : String

/-- `PII_PATTERNS`: the fixed, ordered pattern catalog. -/
def PII_PATTERNS : List PiiPattern :=
  [ ⟨"email", emailReg, "[EMAIL_REDACTED]"⟩,
    ⟨"phone", phoneReg, "[PHONE_REDACTED]"⟩,
    ⟨"ssn", ssnReg, "[SSN_REDACTED]"⟩,
    ⟨"credit_card", ccReg, "[CC_REDACTED]"⟩,
    ⟨"credit_card_formatted", ccfReg, "[CC_REDACTED]"⟩,
    ⟨"ip_v4", ipv4Reg, "[IP_REDACTED]"⟩,
    ⟨"ip_v6", ipv6Reg, "[IP_REDACTED]"⟩ ]

/-- `get_available_patterns()`. -/
def get_available_patterns : List String :=
  PII_PATTERNS.map (·.name)

/-! ## PII redaction engine (pii.py) -/

structure PIIRedactionConfig where
  enabled : Bool := true
  patterns : Option (List String) := none
  log_stats : Bool := false

structure PIIRedactionResult where
  redacted : String
  redactions : List String := []
  counts : List (String × Nat) := []
  has_pii : Bool := false
deriving DecidableEq

/-- The patterns selected by `config.patterns` under Python truthiness:
`None` and the empty list are falsy, so both select the whole catalog;
a non-empty list keeps the catalog patterns whose name it contains
(unknown names select nothing). -/
def patternsOf (ps : Option (List String)) : List PiiPattern :=
  match ps with
  | some l => if l.isEmpty then PII_PATTERNS else PII_PATTERNS.filter (fun p => l.contains p.name)
  | none => PII_PATTERNS

/-- One iteration of the `for name, pattern, replacement in patterns` loop of
`redact_pii`: count the matches in the current text and, if any, record the
count, append the summary and substitute. -/
def redactStep (st : List Char × List String × List (String × Nat)) (p : PiiPattern) :
    List Char × List String × List (String × Nat) :=
  let n := reCount p.reg st.1
  if 0 < n then
    (reSub p.reg p.repl.toList st.1,
     st.2.1 ++ [p.name ++ ": " ++ toString n ++ " instance(s)"],
     st.2.2 ++ [(p.name, n)])
  else st

/-- The pattern loop of `redact_pii` over the selected patterns, and the
construction of its result record. -/
def redactRun (pats : List PiiPattern) (content : String) : PIIRedactionResult :=
  let st := pats.foldl redactStep (content.toList, [], [])
  ⟨String.mk st.1, st.2.1, st.2.2, !st.2.1.isEmpty⟩

/-- `redact_pii(content, config)`.  The `log_stats` diagnostic print is a
side effect with no influence on the returned result and is not modelled. -/
def redact_pii (content : String) (config : Option PIIRedactionConfig) : PIIRedactionResult :=
  let cfg := config.getD {}
  if !cfg.enabled then ⟨content, [], [], false⟩
  else redactRun (patternsOf cfg.patterns) content

/-- `contains_pii(content, patterns)`. -/
def contains_pii (content : String) (patterns : Option (List String)) : Bool :=
  (patternsOf patterns).any (fun p => reSearch p.reg content.toList)

/-! ## SDK types (types.py) -/

inductive ErrorCode
  | MISSING_API_KEY
  | INVALID_INPUT
  | PROMPT_NOT_FOUND
  | API_ERROR
  | TIMEOUT
  | NETWORK_ERROR
  | SERVER_ERROR
  | RETRY_EXHAUSTED
  | LOG_ERROR
deriving DecidableEq

/-- `ForPromptError(message, status_code, code)`.  Every raise site of the
SDK passes a member of `ErrorCode`, so `code` is modelled with that
enumeration (its Python type is `str`, default `"UNKNOWN"`, never used). -/
structure ForPromptError where
  message : String
  status_code : Nat
  code : ErrorCode
deriving DecidableEq

/-- A parsed JSON response body, restricted to the fields the SDK reads:
the `error` field of failure bodies and the prompt fields read by
`Prompt.from_dict`. -/
structure JsonBody where
  error : Option String := none
  key : Option String := none
  name : Option String := none
  versionNumber : Option Int := none
  systemPrompt : Option String := none
  updatedAt : Option Int := none
  description : Option String := none
  purpose : Option String := none
  expectedBehavior : Option String := none
  inputFormat : Option String := none
  outputFormat : Option String := none
  constraints : Option String := none
  useCases : Option String := none
  additionalNotes : Option String := none
  toolsNotes : Option String := none
deriving DecidableEq

structure Prompt where
  key : String
  name : String
  version_number : Int
  system_prompt : String
  updated_at : Int
  description : Option String := none
  purpose : Option String := none
  expected_behavior : Option String := none
  input_format : Option String := none
  output_format : Option String := none
  constraints : Option String := none
  use_cases : Option String := none
  additional_notes : Option String := none
  tools_notes : Option String := none
deriving DecidableEq

/-- `Prompt.from_dict(data)`: the five required keys are read with
`data[...]` (a missing one raises `KeyError`, modelled as `none`), the nine
descriptive fields with `data.get(...)`. -/
def Prompt.fromDict (d : JsonBody) : Option Prompt :=
  match d.key, d.name, d.versionNumber, d.systemPrompt, d.updatedAt with
  | some k, some n, some v, some sp, some u =>
    some { key := k, name := n, version_number := v, system_prompt := sp, updated_at := u,
           description := d.description, purpose := d.purpose,
           expected_behavior := d.expectedBehavior, input_format := d.inputFormat,
           output_format := d.outputFormat, constraints := d.constraints,
           use_cases := d.useCases, additional_notes := d.additionalNotes,
           tools_notes := d.toolsNotes }
  | _, _, _, _, _ => none

/-! ## Retrying request executor (client.py, ForPrompt._make_request) -/

/-- Outcome of one network attempt, as seen by `_make_request`'s `try`
block: an HTTP response (with status and, when it parses, a JSON body), a
timeout (`httpx.TimeoutException`), or a transport failure
(`httpx.RequestError`). -/
inductive HttpAttempt
  | resp (status : Nat) (body : Option JsonBody)
  | timeout
  | netError (message : String)
deriving DecidableEq

/-- Result of `_make_request`: a parsed body, a raised `ForPromptError`, or
an exception of another class (JSON decode failure on a successful
response), which the method does not catch. -/
inductive ReqResult
  | ok (body : JsonBody)
  | fpError (e : ForPromptError)
  | pyError (msg : String)
deriving DecidableEq

/-- A `_make_request` run: its result, how many network calls it issued and
how many backoff sleeps it performed. -/
structure ReqTrace where
  result : ReqResult
  calls : Nat
  sleeps : Nat
deriving DecidableEq

/-- The message of a 4xx error: the body's `error` field if the body
parses and has one, else `"HTTP <status>"`, or `"Unknown error"` when the
body does not parse. -/
def error4xxMessage (status : Nat) (body : Option JsonBody) : String :=
  match body with
  | none => "Unknown error"
  | some b => b.error.getD ("HTTP " ++ toString status)

/-- The retry loop of `_make_request`, counting down the remaining
attempts (`remaining = retries - attempt`, so the loop body runs while
`remaining > 0` and a backoff sleep happens when further attempts remain,
i.e. `attempt < retries - 1`).  `transport k` is the outcome of the `k`-th
attempt (0-based); `timeoutS` stands for the decimal rendering of the
configured timeout in the timeout message. -/
def makeRequestGo (transport : Nat → HttpAttempt) (timeoutS : String) :
    Nat → Nat → Option ForPromptError → Nat → Nat → ReqTrace
  | 0, _, lastError, calls, sleeps =>
    match lastError with
    | some e => ⟨.fpError e, calls, sleeps⟩
    | none => ⟨.fpError ⟨"Request failed after retries", 500, .RETRY_EXHAUSTED⟩, calls, sleeps⟩
  | remaining + 1, attempt, _lastError, calls, sleeps =>
    match transport attempt with
    | .timeout =>
      ⟨.fpError ⟨"Request timeout after " ++ timeoutS ++ "s", 408, .TIMEOUT⟩,
       calls + 1, sleeps⟩
    | .netError m =>
      makeRequestGo transport timeoutS remaining (attempt + 1)
        (some ⟨m, 0, .NETWORK_ERROR⟩) (calls + 1)
        (if 0 < remaining then sleeps + 1 else sleeps)
    | .resp status body =>
      if 400 ≤ status ∧ status < 500 then
        ⟨.fpError ⟨error4xxMessage status body, status,
           if status = 404 then .PROMPT_NOT_FOUND else .API_ERROR⟩,
         calls + 1, sleeps⟩
      else if 200 ≤ status ∧ status < 300 then
        match body with
        | some b => ⟨.ok b, calls + 1, sleeps⟩
        | none => ⟨.pyError "JSON decode error", calls + 1, sleeps⟩
      else
        makeRequestGo transport timeoutS remaining (attempt + 1)
          (some ⟨"Server error: " ++ toString status, status, .SERVER_ERROR⟩) (calls + 1)
          (if 0 < remaining then sleeps + 1 else sleeps)

/-- `_make_request(...)`: the loop `for attempt in range(retries)` from the
first attempt, followed by the `raise last_error or ForPromptError(...)`
fall-through. -/
def makeRequest (transport : Nat → HttpAttempt) (timeoutS : String) (retries : Nat) : ReqTrace :=
  makeRequestGo transport timeoutS retries 0 none 0 0

/-! ## Prompt fetch service (client.py, get_prompt / get_prompts) -/

inductive GetPromptOutcome
  | ok (p : Prompt)
  | fpError (e : ForPromptError)
  | pyError (msg : String)
deriving DecidableEq

structure GetPromptTrace where
  result : GetPromptOutcome
  calls : Nat
  sleeps : Nat
deriving DecidableEq

/-- The fetch part of `get_prompt` after validation: run `_make_request`
and decode the body with `Prompt.from_dict` (whose `KeyError` on a missing
required field is an uncaught exception). -/
def getPromptFetch (transport : Nat → HttpAttempt) (timeoutS : String) (retries : Nat) :
    GetPromptTrace :=
  let t := makeRequest transport timeoutS retries
  match t.result with
  | .ok b =>
    match Prompt.fromDict b with
    | some p => ⟨.ok p, t.calls, t.sleeps⟩
    | none => ⟨.pyError "KeyError", t.calls, t.sleeps⟩
  | .fpError e => ⟨.fpError e, t.calls, t.sleeps⟩
  | .pyError m => ⟨.pyError m, t.calls, t.sleeps⟩

/-- `get_prompt(key, version)`.  Validation happens before any network
call; the query parameters (`key`, stringified `version`) are part of the
request the transport abstracts. -/
def getPrompt (transport : Nat → HttpAttempt) (timeoutS : String) (retries : Nat)
    (key : String) (version : Option Int) : GetPromptTrace :=
  if key.length = 0 then
    ⟨.fpError ⟨"Prompt key must be a non-empty string", 400, .INVALID_INPUT⟩, 0, 0⟩
  else if 256 < key.length then
    ⟨.fpError ⟨"Prompt key must be 256 characters or less", 400, .INVALID_INPUT⟩, 0, 0⟩
  else if version.any (· < 1) then
    ⟨.fpError ⟨"Version must be a positive integer", 400, .INVALID_INPUT⟩, 0, 0⟩
  else getPromptFetch transport timeoutS retries

/-- Python dict assignment `result[key] = prompt`: replace an existing
binding of `key`, else append. -/
def dictInsert (d : List (String × Prompt)) (k : String) (p : Prompt) :
    List (String × Prompt) :=
  if d.any (fun kv => kv.1 = k) then d.map (fun kv => if kv.1 = k then (k, p) else kv)
  else d ++ [(k, p)]

/-- `keys[i:i+5]` batching of `get_prompts` (the concurrency cap; the
batches are processed in order). -/
def chunksOf5Go : Nat → List String → List (List String)
  | _, [] => []
  | 0, _ => []
  | fuel + 1, l => l.take 5 :: chunksOf5Go fuel (l.drop 5)

def chunksOf5 (l : List String) : List (List String) :=
  chunksOf5Go l.length l

/-- Result of `get_prompts`: the mapping, unless an exception other than
`ForPromptError` escaped (only `ForPromptError` is caught per key). -/
inductive BulkResult
  | ok (d : List (String × Prompt))
  | pyError (msg : String)
deriving DecidableEq

/-- The inner `for key in batch` loop of `get_prompts`. -/
def getPromptsBatch (fetch : String → GetPromptOutcome) :
    List String → List (String × Prompt) → BulkResult
  | [], acc => .ok acc
  | k :: ks, acc =>
    match fetch k with
    | .ok p => getPromptsBatch fetch ks (dictInsert acc k p)
    | .fpError _ => getPromptsBatch fetch ks acc
    | .pyError m => .pyError m

/-- The outer batch loop of `get_prompts`. -/
def getPromptsGo (fetch : String → GetPromptOutcome) :
    List (List String) → List (String × Prompt) → BulkResult
  | [], acc => .ok acc
  | b :: bs, acc =>
    match getPromptsBatch fetch b acc with
    | .ok acc2 => getPromptsGo fetch bs acc2
    | .pyError m => .pyError m

/-- `get_prompts(keys, version)`: each key is fetched with `get_prompt`
against its own transport (`transportFor key` gives the network's outcomes
for that key's request); per-key `ForPromptError`s are suppressed. -/
def getPrompts (transportFor : String → Nat → HttpAttempt) (timeoutS : String)
    (retries : Nat) (keys : List String) (version : Option Int) : BulkResult :=
  getPromptsGo (fun k => (getPrompt (transportFor k) timeoutS retries k version).result)
    (chunksOf5 keys) []

/-! ## Trace logger (logger.py, ForPromptLogger) -/

/-- The logger's mutable trace state (`_trace_id`, `_prompt_key`,
`_version_number`). -/
structure TraceState where
  trace_id : Option String := none
  prompt_key : Option String := none
  version_number : Option Int := none
deriving DecidableEq

/-- Python `a or b` for strings: `b` when `a` is `None` or empty. -/
def orStr (a : Option String) (b : String) : String :=
  match a with
  | some s => if s.isEmpty then b else s
  | none => b

/-- `start_trace(prompt_key, trace_id, version_number)`; `freshId` stands
for the generated `str(uuid.uuid4())`.  Returns the new state and the
returned trace id. -/
def startTrace (promptKey : String) (traceId : Option String)
    (versionNumber : Option Int) (freshId : String) : TraceState × String :=
  let tid := orStr traceId freshId
  (⟨some tid, some promptKey, versionNumber⟩, tid)

/-- A metadata value (enough of JSON for the logged metadata). -/
inductive MetaVal
  | str (s : String)
  | strList (l : List String)
  | int (n : Int)
deriving DecidableEq

/-- Python dict assignment on metadata. -/
def metaSet (m : List (String × MetaVal)) (k : String) (v : MetaVal) :
    List (String × MetaVal) :=
  if m.any (fun kv => kv.1 = k) then m.map (fun kv => if kv.1 = k then (k, v) else kv)
  else m ++ [(k, v)]

/-- The outbound `/api/log` payload.  A field whose value is `none` is
omitted from the sent JSON (the `None`-removal comprehension), so `none`
models absence. -/
structure LogPayload where
  traceId : String
  promptKey : String
  versionNumber : Option Int
  type : String
  role : String
  content : String
  model : Option String
  inputTokens : Option Int
  outputTokens : Option Int
  durationMs : Option Int
  source : String
  metadata : Option (List (String × MetaVal))
deriving DecidableEq

/-- `log(...)` up to the outbound payload: auto-trace when no trace is
active (`freshId` stands for the generated uuid), PII redaction of the
content, metadata enrichment, and payload construction.  Returns the
updated state and the payload that is POSTed. -/
def loggerLog (st : TraceState) (redactDefault : Bool) (source : String)
    (role content : String) (model : Option String)
    (inputTokens outputTokens durationMs : Option Int)
    (metadata : Option (List (String × MetaVal)))
    (redactOverride : Option Bool) (freshId : String) : TraceState × LogPayload :=
  let tid := orStr st.trace_id freshId
  let st' : TraceState := { st with trace_id := some tid }
  let shouldRedact := redactOverride.getD redactDefault
  let contentMeta :=
    if shouldRedact then
      let r := redact_pii content (some ⟨true, none, false⟩)
      (r.redacted,
       if r.has_pii then some (metaSet (metadata.getD []) "pii_redactions" (.strList r.redactions))
       else metadata)
    else (content, metadata)
  (st',
   { traceId := tid, promptKey := orStr st.prompt_key "unknown",
     versionNumber := st.version_number, type := "message", role := role,
     content := contentMeta.1, model := model, inputTokens := inputTokens,
     outputTokens := outputTokens, durationMs := durationMs, source := source,
     metadata := contentMeta.2 })

/-- `end_trace()`. -/
def endTrace (_st : TraceState) : TraceState := {}

/-! ## Definitions for the redaction idempotence development (C4) -/

/-- The least length any match of `r` can consume. -/
def minLen : Reg → Nat
  | .cls _ => 1
  | .seq a b => minLen a + minLen b
  | .alt a b => min (minLen a) (minLen b)
  | .opt _ => 0
  | .bnd => 0
  | .repCls lo _ _ => lo

/-- Whether `r` may accept the empty string (an over-approximation used by
the first/last-character conditions). -/
def canE : Reg → Bool
  | .cls _ => false
  | .seq a b => canE a && canE b
  | .alt a b => canE a || canE b
  | .opt _ => true
  | .bnd => true
  | .repCls lo _ _ => lo == 0

/-- Whether `r` contains no word-boundary assertion. -/
def bndFree : Reg → Bool
  | .cls _ => true
  | .seq a b => bndFree a && bndFree b
  | .alt a b => bndFree a && bndFree b
  | .opt a => bndFree a
  | .bnd => false
  | .repCls _ _ _ => true

/-- Every character class of `r` is contained in `A`: every matched span
consists of `A`-characters. -/
def RegAlph : Reg → (Char → Bool) → Prop
  | .cls p, A => ∀ c, p c = true → A c = true
  | .seq a b, A => RegAlph a A ∧ RegAlph b A
  | .alt a b, A => RegAlph a A ∧ RegAlph b A
  | .opt a, A => RegAlph a A
  | .bnd, _ => True
  | .repCls _ _ p, A => ∀ c, p c = true → A c = true

/-- A structural condition forcing every match of `r` to contain a
`W`-character. -/
def MustWit : Reg → (Char → Bool) → Prop
  | .cls p, W => ∀ c, p c = true → W c = true
  | .seq a b, W => MustWit a W ∨ MustWit b W
  | .alt a b, W => MustWit a W ∧ MustWit b W
  | .opt _, _ => False
  | .bnd, _ => False
  | .repCls lo _ p, W => 1 ≤ lo ∧ ∀ c, p c = true → W c = true

/-- A structural condition forcing every non-empty match of `r` to start
with a `W`-character. -/
def FirstIn : Reg → (Char → Bool) → Prop
  | .cls p, W => ∀ c, p c = true → W c = true
  | .seq a b, W => FirstIn a W ∧ (canE a = true → FirstIn b W)
  | .alt a b, W => FirstIn a W ∧ FirstIn b W
  | .opt a, W => FirstIn a W
  | .bnd, _ => True
  | .repCls _ _ p, W => ∀ c, p c = true → W c = true

/-- A structural condition forcing every non-empty match of `r` to end on
a `W`-character. -/
def LastIn : Reg → (Char → Bool) → Prop
  | .cls p, W => ∀ c, p c = true → W c = true
  | .seq a b, W => (canE b = true → LastIn a W) ∧ LastIn b W
  | .alt a b, W => LastIn a W ∧ LastIn b W
  | .opt a, W => LastIn a W
  | .bnd, _ => True
  | .repCls _ _ p, W => ∀ c, p c = true → W c = true

/-- `reCountGo` with its canonical fuel. -/
def countF (r : Reg) (pw : Bool) (s : List Char) : Nat :=
  reCountGo r s.length pw s

/-- `reSubGo` with its canonical fuel. -/
def subF (r : Reg) (T : List Char) (pw : Bool) (s : List Char) : List Char :=
  reSubGo r T s.length pw s

/-- Wordness of the last character of `l` (`pw` when `l` is empty): the
context a scan is in after passing `l`. -/
def wEnd (pw : Bool) (l : List Char) : Bool :=
  wAt pw l l.length

/-- The characters occurring in the five replacement tokens. -/
def allTokenChars : List Char :=
  ("[EMAIL_REDACTED]" ++ "[PHONE_REDACTED]" ++ "[SSN_REDACTED]"
    ++ "[CC_REDACTED]" ++ "[IP_REDACTED]").toList

/-- The facts about one catalog pattern and its replacement token that the
idempotence argument uses: an alphabet `A` covering every matchable
character and excluding the token brackets, a witness class `W` that every
match must contain and no token character satisfies, a positive minimal
match length, and either freedom from word-boundary assertions or the
`\b…\b` shape with word characters at both match ends. -/
structure PatFacts where
  r : Reg
  tok : List Char
  A : Char → Bool
  W : Char → Bool
  halph : RegAlph r A
  hbrL : A '[' = false
  hbrR : A ']' = false
  hwit : MustWit r W
  hmin : 1 ≤ minLen r
  hmode : bndFree r = true ∨
    ((∃ core, r = .seq .bnd (.seq core .bnd)) ∧ FirstIn r isWordCh ∧ LastIn r isWordCh)
  hWtok : ∀ c ∈ allTokenChars, W c = false
  htokH : tok.head? = some '['
  htokL : tok.getLast? = some ']'
  htokSub : ∀ c ∈ tok, c ∈ allTokenChars

/-- The text component of `redact_pii`'s pattern loop: each pattern's
substitution applied in catalog order. -/
def subAll (pats : List PiiPattern) (t : List Char) : List Char :=
  pats.foldl (fun tt p => reSub p.reg p.repl.toList tt) t

/-- Characters other than the square brackets delimiting the replacement
tokens: the shared alphabet bound of all seven patterns. -/
def noBrk (c : Char) : Bool :=
  !(c = '[' || c = ']')

/-- Witness class of the email pattern: its mandatory `@`. -/
def atWit (c : Char) : Bool := c = '@'

/-- Witness class of the IPv6 pattern: its mandatory `:`. -/
def colonWit (c : Char) : Bool := c = ':'

/-- The facts about one catalog entry that the idempotence argument uses:
an alphabet bound excluding the token brackets, a witness class `W` that
every match must contain and no token character satisfies, a positive
minimal match length, either freedom from `\b` or the `\b…\b` shape with
word characters at both match ends, and the bracket-delimited shape of the
replacement token. -/
structure PatGood (p : PiiPattern) (W : Char → Bool) : Prop where
  halph : RegAlph p.reg noBrk
  hwit : MustWit p.reg W
  hmin : 1 ≤ minLen p.reg
  hmode : bndFree p.reg = true ∨
    ((∃ core, p.reg = .seq .bnd (.seq core .bnd)) ∧
      FirstIn p.reg isWordCh ∧ LastIn p.reg isWordCh)
  hWtok : ∀ c ∈ allTokenChars, W c = false
  htokH : ∃ TT, p.repl.toList = '[' :: TT
  htokL : p.repl.toList.getLast? = some ']'
  htokSub : ∀ c ∈ p.repl.toList, c ∈ allTokenChars

/-- The ordering condition an earlier pattern `ri` and a later pattern `rj`
of the catalog satisfy: either `ri` has no `\b`, or `rj` is `\b`-delimited
with word characters at both match ends. -/
def ModeOK (ri rj : Reg) : Prop :=
  bndFree ri = true ∨
    ((∃ core, rj = .seq .bnd (.seq core .bnd)) ∧
      FirstIn rj isWordCh ∧ LastIn rj isWordCh)

/-! ## Request executor lemmas and claim theorems -/

/-- The trace a successful (2xx) response yields: the parsed body, or the
uncaught JSON decode error. -/
def respSuccessTrace (b : Option JsonBody) (calls sleeps : Nat) : ReqTrace :=
  match b with
  | some bb => ⟨.ok bb, calls + 1, sleeps⟩
  | none => ⟨.pyError "JSON decode error", calls + 1, sleeps⟩

theorem makeRequestGo_timeout_step (transport : Nat → HttpAttempt) (ts : String)
    (n attempt : Nat) (lastE : Option ForPromptError) (calls sleeps : Nat)
    (h : transport attempt = .timeout) :
    makeRequestGo transport ts (n + 1) attempt lastE calls sleeps =
      ⟨.fpError ⟨"Request timeout after " ++ ts ++ "s", 408, .TIMEOUT⟩, calls + 1, sleeps⟩ := by
  rw [makeRequestGo, h]

theorem makeRequestGo_net_step (transport : Nat → HttpAttempt) (ts : String)
    (n attempt : Nat) (lastE : Option ForPromptError) (calls sleeps : Nat) (m : String)
    (h : transport attempt = .netError m) :
    makeRequestGo transport ts (n + 1) attempt lastE calls sleeps =
      makeRequestGo transport ts n (attempt + 1) (some ⟨m, 0, .NETWORK_ERROR⟩) (calls + 1)
        (if 0 < n then sleeps + 1 else sleeps) := by
  rw [makeRequestGo, h]

theorem makeRequestGo_resp_step (transport : Nat → HttpAttempt) (ts : String)
    (n attempt : Nat) (lastE : Option ForPromptError) (calls sleeps st : Nat)
    (b : Option JsonBody) (h : transport attempt = .resp st b) :
    makeRequestGo transport ts (n + 1) attempt lastE calls sleeps =
      (if 400 ≤ st ∧ st < 500 then
        ⟨.fpError ⟨error4xxMessage st b, st,
           if st = 404 then .PROMPT_NOT_FOUND else .API_ERROR⟩, calls + 1, sleeps⟩
      else if 200 ≤ st ∧ st < 300 then
        respSuccessTrace b calls sleeps
      else
        makeRequestGo transport ts n (attempt + 1)
          (some ⟨"Server error: " ++ toString st, st, .SERVER_ERROR⟩) (calls + 1)
          (if 0 < n then sleeps + 1 else sleeps)) := by
  rw [makeRequestGo, h]
  rfl

theorem makeRequestGo_zero_some (transport : Nat → HttpAttempt) (ts : String)
    (attempt : Nat) (e : ForPromptError) (calls sleeps : Nat) :
    makeRequestGo transport ts 0 attempt (some e) calls sleeps = ⟨.fpError e, calls, sleeps⟩ :=
  rfl

theorem makeRequestGo_zero_none (transport : Nat → HttpAttempt) (ts : String)
    (attempt : Nat) (calls sleeps : Nat) :
    makeRequestGo transport ts 0 attempt none calls sleeps =
      ⟨.fpError ⟨"Request failed after retries", 500, .RETRY_EXHAUSTED⟩, calls, sleeps⟩ :=
  rfl

/-- The last error recorded for a retryable attempt outcome (5xx response
or transport failure). -/
def lastRetryError : HttpAttempt → ForPromptError
  | .resp st _ => ⟨"Server error: " ++ toString st, st, .SERVER_ERROR⟩
  | .netError m => ⟨m, 0, .NETWORK_ERROR⟩
  | .timeout => ⟨"", 0, .TIMEOUT⟩

/-- A retryable outcome in the sense of the spec: an HTTP 5xx response or
a transport/connection failure. -/
def Retryable5xxOrNet (o : HttpAttempt) : Prop :=
  (∃ st b, o = .resp st b ∧ 500 ≤ st ∧ st < 600) ∨ (∃ m, o = .netError m)

/-- If every attempt that will run is retryable, the loop consumes all
remaining attempts, sleeping between consecutive ones, and surfaces the
last recorded error itself. -/
theorem makeRequestGo_all_retryable (transport : Nat → HttpAttempt) (ts : String) :
    ∀ remaining attempt lastE calls sleeps, 1 ≤ remaining →
    (∀ k, attempt ≤ k → k < attempt + remaining → Retryable5xxOrNet (transport k)) →
    makeRequestGo transport ts remaining attempt lastE calls sleeps =
      ⟨.fpError (lastRetryError (transport (attempt + remaining - 1))),
       calls + remaining, sleeps + (remaining - 1)⟩ := by
  intro remaining
  induction remaining with
  | zero => intro _ _ _ _ h; exact absurd h (by omega)
  | succ n ih =>
    intro attempt lastE calls sleeps _ hr
    rcases hr attempt (Nat.le_refl _) (by omega) with ⟨st, b, heq, h5⟩ | ⟨m, heq⟩
    · rw [makeRequestGo_resp_step transport ts n attempt lastE calls sleeps st b heq,
        if_neg (by omega : ¬(400 ≤ st ∧ st < 500)),
        if_neg (by omega : ¬(200 ≤ st ∧ st < 300))]
      rcases Nat.eq_zero_or_pos n with hn | hn
      · subst hn
        rw [makeRequestGo_zero_some]
        simp [heq, lastRetryError]
      · rw [ih (attempt + 1) _ (calls + 1) _ hn (fun k hk1 hk2 => hr k (by omega) (by omega))]
        have e1 : attempt + 1 + n - 1 = attempt + (n + 1) - 1 := by omega
        have e2 : calls + 1 + n = calls + (n + 1) := by omega
        have e3 : (if 0 < n then sleeps + 1 else sleeps) + (n - 1) = sleeps + (n + 1 - 1) := by
          rw [if_pos hn]; omega
        rw [e1, e2, e3]
    · rw [makeRequestGo_net_step transport ts n attempt lastE calls sleeps m heq]
      rcases Nat.eq_zero_or_pos n with hn | hn
      · subst hn
        rw [makeRequestGo_zero_some]
        simp [heq, lastRetryError]
      · rw [ih (attempt + 1) _ (calls + 1) _ hn (fun k hk1 hk2 => hr k (by omega) (by omega))]
        have e1 : attempt + 1 + n - 1 = attempt + (n + 1) - 1 := by omega
        have e2 : calls + 1 + n = calls + (n + 1) := by omega
        have e3 : (if 0 < n then sleeps + 1 else sleeps) + (n - 1) = sleeps + (n + 1 - 1) := by
          rw [if_pos hn]; omega
        rw [e1, e2, e3]

/-- C3 counterexample: with a transport that always answers HTTP 500 and
`retries=3`, the executor fails with kind `SERVER_ERROR` — the last
recorded retryable error itself — not `RETRY_EXHAUSTED` as the claim
states. -/
theorem makeRequest_exhaustion_counterexample :
    (makeRequest (fun _ => .resp 500 none) "30.0" 3).result =
      .fpError ⟨"Server error: 500", 500, .SERVER_ERROR⟩ ∧
    ErrorCode.SERVER_ERROR ≠ ErrorCode.RETRY_EXHAUSTED := by
  constructor
  · decide
  · decide

/-- C3 (amended): for every transport whose every attempt yields a
retryable outcome (HTTP 5xx or a transport failure), after all configured
attempts (≥ 1) are exhausted the executor fails with the *last recorded
retryable error itself* (kind `SERVER_ERROR` or `NETWORK_ERROR`, never
`RETRY_EXHAUSTED`), having made `retries` calls and `retries - 1` backoff
sleeps; `RETRY_EXHAUSTED` (status 500) is only the fall-through for a loop
that recorded no error. -/
theorem makeRequest_exhaustion_surfaces_last_error (transport : Nat → HttpAttempt)
    (ts : String) (retries : Nat) (h1 : 1 ≤ retries)
    (hr : ∀ k, k < retries → Retryable5xxOrNet (transport k)) :
    makeRequest transport ts retries =
      ⟨.fpError (lastRetryError (transport (retries - 1))), retries, retries - 1⟩ ∧
    (lastRetryError (transport (retries - 1))).code ≠ .RETRY_EXHAUSTED := by
  constructor
  · rw [makeRequest,
      makeRequestGo_all_retryable transport ts retries 0 none 0 0 h1
        (fun k hk1 hk2 => hr k (by omega))]
    simp
  · rcases hr (retries - 1) (by omega) with ⟨st, b, heq, _⟩ | ⟨m, heq⟩ <;>
      simp [heq, lastRetryError]

/-- C3 amended witness at a concrete input: always-500 transport with 3
retries. -/
theorem makeRequest_exhaustion_surfaces_last_error_witness :
    makeRequest (fun _ => .resp 500 none) "30.0" 3 =
      ⟨.fpError (lastRetryError ((fun _ => HttpAttempt.resp 500 none) (3 - 1))), 3, 3 - 1⟩ ∧
    (lastRetryError ((fun _ => HttpAttempt.resp 500 none) (3 - 1))).code ≠ .RETRY_EXHAUSTED :=
  makeRequest_exhaustion_surfaces_last_error (fun _ => .resp 500 none) "30.0" 3
    (by omega) (fun k _ => Or.inl ⟨500, none, rfl, by omega⟩)

/-- C2: a timeout on the first attempt fails immediately with kind
`TIMEOUT` (status 408) after exactly one network call, no further attempt
and no backoff sleep, for every configured retries count ≥ 1. -/
theorem makeRequest_timeout_no_retry (transport : Nat → HttpAttempt) (ts : String)
    (retries : Nat) (h1 : 1 ≤ retries) (ht : transport 0 = .timeout) :
    makeRequest transport ts retries =
      ⟨.fpError ⟨"Request timeout after " ++ ts ++ "s", 408, .TIMEOUT⟩, 1, 0⟩ := by
  obtain ⟨n, rfl⟩ : ∃ n, retries = n + 1 := ⟨retries - 1, by omega⟩
  rw [makeRequest, makeRequestGo_timeout_step transport ts n 0 none 0 0 ht]

/-- C2 witness: an always-timing-out transport with 3 retries. -/
theorem makeRequest_timeout_no_retry_witness :
    makeRequest (fun _ => .timeout) "30.0" 3 =
      ⟨.fpError ⟨"Request timeout after " ++ "30.0" ++ "s", 408, .TIMEOUT⟩, 1, 0⟩ :=
  makeRequest_timeout_no_retry (fun _ => .timeout) "30.0" 3 (by omega) rfl

/-- C1: with HTTP 500 on the first two attempts and HTTP 200 with a valid
prompt body on the third, and `retries=3`, `get_prompt` returns the decoded
prompt after exactly 3 network calls and exactly 2 backoff sleeps. -/
theorem getPrompt_500_500_200_succeeds (transport : Nat → HttpAttempt) (ts : String)
    (key : String) (version : Option Int) (b0 b1 : Option JsonBody) (b : JsonBody)
    (p : Prompt) (hk0 : key.length ≠ 0) (hk1 : key.length ≤ 256)
    (hv : ∀ v ∈ version, 1 ≤ v)
    (h0 : transport 0 = .resp 500 b0) (h1 : transport 1 = .resp 500 b1)
    (h2 : transport 2 = .resp 200 (some b)) (hb : Prompt.fromDict b = some p) :
    getPrompt transport ts 3 key version = ⟨.ok p, 3, 2⟩ := by
  have hva : version.any (fun v => decide (v < 1)) = false := by
    cases version with
    | none => rfl
    | some v =>
      have := hv v rfl
      simp only [Option.any, decide_eq_false_iff_not, not_lt]
      omega
  rw [getPrompt, if_neg hk0, if_neg (by omega : ¬256 < key.length),
    if_neg (by simp [hva] : ¬(version.any (· < 1) = true))]
  rw [getPromptFetch, makeRequest]
  rw [show (3 : Nat) = 2 + 1 from rfl,
    makeRequestGo_resp_step transport ts 2 0 none 0 0 500 b0 h0,
    if_neg (by omega : ¬(400 ≤ 500 ∧ 500 < 500)),
    if_neg (by omega : ¬(200 ≤ 500 ∧ 500 < 300))]
  rw [show (2 : Nat) = 1 + 1 from rfl,
    makeRequestGo_resp_step transport ts 1 1 _ 1 _ 500 b1 h1,
    if_neg (by omega : ¬(400 ≤ 500 ∧ 500 < 500)),
    if_neg (by omega : ¬(200 ≤ 500 ∧ 500 < 300))]
  rw [show (1 : Nat) = 0 + 1 from rfl,
    makeRequestGo_resp_step transport ts 0 2 _ 2 _ 200 (some b) h2,
    if_neg (by omega : ¬(400 ≤ 200 ∧ 200 < 500)),
    if_pos (by omega : (200 ≤ 200 ∧ 200 < 300))]
  simp only [respSuccessTrace, hb]
  norm_num

/-- C1 witness fixtures: a concrete transport, body and prompt. -/
def exBody : JsonBody :=
  { key := some "greeting", name := some "Greeting", versionNumber := some 1,
    systemPrompt := some "Hi", updatedAt := some 0 }

def exPrompt : Prompt :=
  { key := "greeting", name := "Greeting", version_number := 1,
    system_prompt := "Hi", updated_at := 0 }

def exTransportC1 : Nat → HttpAttempt := fun n =>
  if n < 2 then .resp 500 none else .resp 200 (some exBody)

theorem getPrompt_500_500_200_succeeds_witness :
    getPrompt exTransportC1 "30.0" 3 "greeting" none = ⟨.ok exPrompt, 3, 2⟩ :=
  getPrompt_500_500_200_succeeds exTransportC1 "30.0" "greeting" none none none exBody
    exPrompt (by decide) (by decide) (by intro v hv; cases hv) rfl rfl rfl rfl

/-- C6: an empty key, an overlong key, or a version below 1 makes
`get_prompt` fail with kind `INVALID_INPUT` and status 400 before any
network call: zero calls and zero sleeps. -/
theorem getPrompt_invalid_input_no_calls (transport : Nat → HttpAttempt) (ts : String)
    (retries : Nat) (key : String) (version : Option Int)
    (h : key.length = 0 ∨ 256 < key.length ∨ ∃ v, version = some v ∧ v < 1) :
    ∃ m, getPrompt transport ts retries key version =
      ⟨.fpError ⟨m, 400, .INVALID_INPUT⟩, 0, 0⟩ := by
  rw [getPrompt]
  by_cases hk0 : key.length = 0
  · exact ⟨"Prompt key must be a non-empty string", by rw [if_pos hk0]⟩
  · rw [if_neg hk0]
    by_cases hk1 : 256 < key.length
    · exact ⟨"Prompt key must be 256 characters or less", by rw [if_pos hk1]⟩
    · rw [if_neg hk1]
      obtain ⟨v, rfl, hv⟩ : ∃ v, version = some v ∧ v < 1 := by tauto
      refine ⟨"Version must be a positive integer", ?_⟩
      rw [if_pos]
      simp only [Option.any, decide_eq_true_eq]
      omega

/-- C6 witness: the empty key. -/
theorem getPrompt_invalid_input_no_calls_witness :
    ∃ m, getPrompt (fun _ => .timeout) "30.0" 3 "" none =
      ⟨.fpError ⟨m, 400, .INVALID_INPUT⟩, 0, 0⟩ :=
  getPrompt_invalid_input_no_calls (fun _ => .timeout) "30.0" 3 "" none (Or.inl rfl)

/-- C9 counterexample: a timeout error is not derived from an HTTP
response, yet it carries status 408, not 0 — refuting the claim that every
non-HTTP-derived error (in particular `TIMEOUT`) has status 0. -/
theorem error_status_counterexample :
    (makeRequest (fun _ => .timeout) "30.0" 3).result =
      .fpError ⟨"Request timeout after 30.0s", 408, .TIMEOUT⟩ ∧
    (408 : Nat) ≠ 0 := by
  constructor
  · decide
  · decide

/-- The statuses each error kind of the executor actually carries. -/
def ErrorStatusInv (transport : Nat → HttpAttempt) (e : ForPromptError) : Prop :=
  (e.code = .TIMEOUT → e.status_code = 408) ∧
  (e.code = .NETWORK_ERROR → e.status_code = 0) ∧
  (e.code = .RETRY_EXHAUSTED → e.status_code = 500) ∧
  (e.code = .SERVER_ERROR → ∃ k bd, transport k = .resp e.status_code bd)

/-- C9 (amended): every error the executor produces carries exactly one
kind of the fixed enumeration (`ForPromptError.code`); `NETWORK_ERROR`
errors carry status 0 as claimed, but `TIMEOUT` errors carry 408 and the
`RETRY_EXHAUSTED` fall-through carries 500 even though neither comes from
an HTTP response; `SERVER_ERROR` statuses come from a response. -/
theorem makeRequest_error_status_by_kind (transport : Nat → HttpAttempt) (ts : String)
    (retries : Nat) (e : ForPromptError)
    (h : (makeRequest transport ts retries).result = .fpError e) :
    ErrorStatusInv transport e := by
  suffices hgen : ∀ remaining attempt lastE calls sleeps,
      (∀ e', lastE = some e' → ErrorStatusInv transport e') →
      (makeRequestGo transport ts remaining attempt lastE calls sleeps).result = .fpError e →
      ErrorStatusInv transport e by
    exact hgen retries 0 none 0 0 (by intro e' he'; cases he') h
  intro remaining
  induction remaining with
  | zero =>
    intro attempt lastE calls sleeps hle hres
    cases lastE with
    | some e' =>
      rw [makeRequestGo_zero_some] at hres
      cases hres
      exact hle e rfl
    | none =>
      rw [makeRequestGo_zero_none] at hres
      cases hres
      refine ⟨(by intro hc; cases hc), (by intro hc; cases hc), fun _ => rfl,
        (by intro hc; cases hc)⟩
  | succ n ih =>
    intro attempt lastE calls sleeps hle hres
    cases hta : transport attempt with
    | timeout =>
      rw [makeRequestGo_timeout_step transport ts n attempt lastE calls sleeps hta] at hres
      cases hres
      refine ⟨fun _ => rfl, (by intro hc; cases hc), (by intro hc; cases hc),
        (by intro hc; cases hc)⟩
    | netError m =>
      rw [makeRequestGo_net_step transport ts n attempt lastE calls sleeps m hta] at hres
      refine ih (attempt + 1) _ (calls + 1) _ ?_ hres
      intro e' he'
      cases he'
      refine ⟨(by intro hc; cases hc), fun _ => rfl, (by intro hc; cases hc),
        (by intro hc; cases hc)⟩
    | resp status body =>
      rw [makeRequestGo_resp_step transport ts n attempt lastE calls sleeps status body hta]
        at hres
      by_cases h4 : 400 ≤ status ∧ status < 500
      · rw [if_pos h4] at hres
        cases hres
        by_cases h404 : status = 404
        · rw [if_pos h404]
          refine ⟨(by intro hc; cases hc), (by intro hc; cases hc), (by intro hc; cases hc),
            (by intro hc; cases hc)⟩
        · rw [if_neg h404]
          refine ⟨(by intro hc; cases hc), (by intro hc; cases hc), (by intro hc; cases hc),
            (by intro hc; cases hc)⟩
      · rw [if_neg h4] at hres
        by_cases h2 : 200 ≤ status ∧ status < 300
        · rw [if_pos h2] at hres
          cases body with
          | some bb => cases hres
          | none => cases hres
        · rw [if_neg h2] at hres
          refine ih (attempt + 1) _ (calls + 1) _ ?_ hres
          intro e' he'
          cases he'
          refine ⟨(by intro hc; cases hc), (by intro hc; cases hc),
            (by intro hc; cases hc), fun _ => ⟨attempt, body, hta⟩⟩

/-- C9 amended witness: at the timeout transport, the produced error's
statuses follow the amended rule. -/
theorem makeRequest_error_status_by_kind_witness :
    ErrorStatusInv (fun _ => .timeout)
      ⟨"Request timeout after 30.0s", 408, .TIMEOUT⟩ :=
  makeRequest_error_status_by_kind (fun _ => .timeout) "30.0" 3
    ⟨"Request timeout after 30.0s", 408, .TIMEOUT⟩ (by decide)

/-! ## Bulk fetch lemmas and claim theorem (C7) -/

theorem dictInsert_fst (d : List (String × Prompt)) (k : String) (p : Prompt) (x : String) :
    x ∈ (dictInsert d k p).map Prod.fst ↔ x ∈ d.map Prod.fst ∨ x = k := by
  rw [dictInsert]
  by_cases hk : d.any (fun kv => kv.1 = k)
  · rw [if_pos hk]
    have hmap : (d.map (fun kv => if kv.1 = k then (k, p) else kv)).map Prod.fst
        = d.map Prod.fst := by
      rw [List.map_map]
      apply List.map_congr_left
      intro kv _
      by_cases h0 : kv.1 = k
      · simp only [Function.comp_apply, if_pos h0]
        exact h0.symm
      · simp only [Function.comp_apply, if_neg h0]
    rw [hmap]
    have hmem : k ∈ d.map Prod.fst := by
      rcases List.any_eq_true.mp hk with ⟨kv, hkv, heq⟩
      exact List.mem_map.mpr ⟨kv, hkv, of_decide_eq_true heq⟩
    constructor
    · exact Or.inl
    · rintro (hx | rfl)
      · exact hx
      · exact hmem
  · rw [if_neg hk, List.map_append]
    simp

theorem getPromptsBatch_fst (fetch : String → GetPromptOutcome) :
    ∀ (ks : List String) (acc : List (String × Prompt)),
    (∀ k ∈ ks, (∃ p, fetch k = .ok p) ∨ (∃ e, fetch k = .fpError e)) →
    ∃ d, getPromptsBatch fetch ks acc = .ok d ∧
      ∀ x, x ∈ d.map Prod.fst ↔
        x ∈ acc.map Prod.fst ∨ (x ∈ ks ∧ ∃ p, fetch x = .ok p) := by
  intro ks
  induction ks with
  | nil =>
    intro acc _
    exact ⟨acc, rfl, fun x => by simp⟩
  | cons k ks ih =>
    intro acc h
    rcases h k (List.mem_cons_self k ks) with ⟨p, hp⟩ | ⟨e, he⟩
    · rw [getPromptsBatch, hp]
      obtain ⟨d, hd, hiff⟩ := ih (dictInsert acc k p) (fun k' hk' => h k' (List.mem_cons_of_mem _ hk'))
      refine ⟨d, hd, fun x => ?_⟩
      rw [hiff x, dictInsert_fst]
      constructor
      · rintro ((hx | rfl) | ⟨hks, hp'⟩)
        · exact Or.inl hx
        · exact Or.inr ⟨List.mem_cons_self _ _, p, hp⟩
        · exact Or.inr ⟨List.mem_cons_of_mem _ hks, hp'⟩
      · rintro (hx | ⟨hmem, hp'⟩)
        · exact Or.inl (Or.inl hx)
        · rcases List.mem_cons.mp hmem with rfl | hks
          · exact Or.inl (Or.inr rfl)
          · exact Or.inr ⟨hks, hp'⟩
    · rw [getPromptsBatch, he]
      obtain ⟨d, hd, hiff⟩ := ih acc (fun k' hk' => h k' (List.mem_cons_of_mem _ hk'))
      refine ⟨d, hd, fun x => ?_⟩
      rw [hiff x]
      constructor
      · rintro (hx | ⟨hks, hp'⟩)
        · exact Or.inl hx
        · exact Or.inr ⟨List.mem_cons_of_mem _ hks, hp'⟩
      · rintro (hx | ⟨hmem, hp'⟩)
        · exact Or.inl hx
        · rcases List.mem_cons.mp hmem with rfl | hks
          · rcases hp' with ⟨p, hp⟩
            rw [hp] at he
            cases he
          · exact Or.inr ⟨hks, hp'⟩

theorem getPromptsGo_fst (fetch : String → GetPromptOutcome) :
    ∀ (bs : List (List String)) (acc : List (String × Prompt)),
    (∀ k ∈ bs.flatten, (∃ p, fetch k = .ok p) ∨ (∃ e, fetch k = .fpError e)) →
    ∃ d, getPromptsGo fetch bs acc = .ok d ∧
      ∀ x, x ∈ d.map Prod.fst ↔
        x ∈ acc.map Prod.fst ∨ (x ∈ bs.flatten ∧ ∃ p, fetch x = .ok p) := by
  intro bs
  induction bs with
  | nil =>
    intro acc _
    exact ⟨acc, rfl, fun x => by simp⟩
  | cons b bs ih =>
    intro acc h
    obtain ⟨d1, hd1, hiff1⟩ := getPromptsBatch_fst fetch b acc
      (fun k hk => h k (by simp [hk]))
    rw [getPromptsGo, hd1]
    obtain ⟨d, hd, hiff⟩ := ih d1 (fun k hk => h k (by simp [hk]))
    refine ⟨d, hd, fun x => ?_⟩
    rw [hiff x, hiff1 x]
    simp only [List.flatten_cons, List.mem_append]
    tauto

theorem chunksOf5Go_join :
    ∀ (fuel : Nat) (l : List String), l.length ≤ fuel → (chunksOf5Go fuel l).flatten = l := by
  intro fuel
  induction fuel with
  | zero =>
    intro l hl
    have : l = [] := List.length_eq_zero.mp (by omega)
    subst this
    rfl
  | succ n ih =>
    intro l hl
    cases l with
    | nil => rfl
    | cons c rest =>
      have hd : ((c :: rest).drop 5).length ≤ n := by
        rw [List.length_drop, List.length_cons]
        simp only [List.length_cons] at hl
        omega
      have hstep : chunksOf5Go (n + 1) (c :: rest)
          = (c :: rest).take 5 :: chunksOf5Go n ((c :: rest).drop 5) := rfl
      rw [hstep, List.flatten_cons, ih _ hd]
      exact List.take_append_drop 5 (c :: rest)

theorem chunksOf5_join (l : List String) : (chunksOf5 l).flatten = l :=
  chunksOf5Go_join l.length l (Nat.le_refl _)

/-- C7: whenever every key's individual fetch either succeeds or fails
with a `ForPromptError` (any error kind), `get_prompts` raises nothing and
returns a mapping whose key set is exactly the succeeding keys. -/
theorem getPrompts_key_set (transportFor : String → Nat → HttpAttempt) (ts : String)
    (retries : Nat) (keys : List String) (version : Option Int)
    (h : ∀ k ∈ keys,
      (∃ p, (getPrompt (transportFor k) ts retries k version).result = .ok p) ∨
      (∃ e, (getPrompt (transportFor k) ts retries k version).result = .fpError e)) :
    ∃ d, getPrompts transportFor ts retries keys version = .ok d ∧
      ∀ x, x ∈ d.map Prod.fst ↔
        (x ∈ keys ∧ ∃ p, (getPrompt (transportFor x) ts retries x version).result = .ok p) := by
  obtain ⟨d, hd, hiff⟩ := getPromptsGo_fst
    (fun k => (getPrompt (transportFor k) ts retries k version).result)
    (chunksOf5 keys) [] (by rw [chunksOf5_join]; exact h)
  refine ⟨d, hd, fun x => ?_⟩
  rw [hiff x, chunksOf5_join]
  simp

/-- C7 witness fixtures: seven keys of which `k3` and `k5` fail with
`PROMPT_NOT_FOUND`. -/
def exKeysC7 : List String := ["k1", "k2", "k3", "k4", "k5", "k6", "k7"]

def exTransportC7 : String → Nat → HttpAttempt := fun k _ =>
  if k = "k3" || k = "k5" then .resp 404 none else .resp 200 (some exBody)

theorem getPrompts_key_set_witness :
    ∃ d, getPrompts exTransportC7 "30.0" 3 exKeysC7 none = .ok d ∧
      ∀ x, x ∈ d.map Prod.fst ↔
        (x ∈ exKeysC7 ∧ ∃ p, (getPrompt (exTransportC7 x) "30.0" 3 x none).result = .ok p) :=
  getPrompts_key_set exTransportC7 "30.0" 3 exKeysC7 none (by
    intro k hk
    fin_cases hk
    · exact Or.inl ⟨exPrompt, by decide⟩
    · exact Or.inl ⟨exPrompt, by decide⟩
    · exact Or.inr ⟨⟨"Unknown error", 404, .PROMPT_NOT_FOUND⟩, by decide⟩
    · exact Or.inl ⟨exPrompt, by decide⟩
    · exact Or.inr ⟨⟨"Unknown error", 404, .PROMPT_NOT_FOUND⟩, by decide⟩
    · exact Or.inl ⟨exPrompt, by decide⟩
    · exact Or.inl ⟨exPrompt, by decide⟩)

/-! ## PII result invariants and pattern selection (C8, C10) -/

theorem redact_pii_enabled_eq (content : String) (pt : Option (List String)) (ls : Bool) :
    redact_pii content (some ⟨true, pt, ls⟩) = redactRun (patternsOf pt) content := by
  rw [redact_pii]
  simp only [Option.getD_some, Bool.not_true, Bool.false_eq_true, if_false]

theorem redactFold_inv (pats : List PiiPattern) :
    ∀ st : List Char × List String × List (String × Nat),
    (st.2.1 = [] ↔ st.2.2 = []) → (∀ pc ∈ st.2.2, 0 < pc.2) →
    (((pats.foldl redactStep st).2.1 = [] ↔ (pats.foldl redactStep st).2.2 = []) ∧
     ∀ pc ∈ (pats.foldl redactStep st).2.2, 0 < pc.2) := by
  induction pats with
  | nil => exact fun st h1 h2 => ⟨h1, h2⟩
  | cons p ps ih =>
    intro st h1 h2
    rw [List.foldl_cons]
    apply ih
    · rw [redactStep]
      by_cases hn : 0 < reCount p.reg st.1
      · rw [if_pos hn]
        simp
      · rw [if_neg hn]
        exact h1
    · rw [redactStep]
      by_cases hn : 0 < reCount p.reg st.1
      · rw [if_pos hn]
        intro pc hpc
        rcases List.mem_append.mp hpc with hpc | hpc
        · exact h2 pc hpc
        · rcases List.mem_singleton.mp hpc with rfl
          exact hn
      · rw [if_neg hn]
        exact h2

theorem redactRun_invariants (pats : List PiiPattern) (content : String) :
    ((redactRun pats content).has_pii = true ↔ (redactRun pats content).redactions ≠ []) ∧
    ((redactRun pats content).redactions ≠ [] ↔
      ((redactRun pats content).counts ≠ [] ∧
       ∀ pc ∈ (redactRun pats content).counts, 0 < pc.2)) := by
  rw [redactRun]
  obtain ⟨hiff, hpos⟩ := redactFold_inv pats (content.toList, [], []) (by simp) (by simp)
  constructor
  · simp only [ne_eq, Bool.not_eq_true']
    rw [Bool.eq_false_iff]
    exact not_iff_not.mpr List.isEmpty_iff
  · constructor
    · intro hne
      exact ⟨fun hc => hne (hiff.mpr hc), hpos⟩
    · intro ⟨hc, _⟩ hr
      exact hc (hiff.mp hr)

/-- C8: for every input and configuration, the returned
`PIIRedactionResult` satisfies: `has_pii` is true iff `redactions` is
non-empty, iff `counts` is non-empty with every recorded count
positive. -/
theorem redact_pii_result_invariants (content : String) (config : Option PIIRedactionConfig) :
    ((redact_pii content config).has_pii = true ↔ (redact_pii content config).redactions ≠ []) ∧
    ((redact_pii content config).redactions ≠ [] ↔
      ((redact_pii content config).counts ≠ [] ∧
       ∀ pc ∈ (redact_pii content config).counts, 0 < pc.2)) := by
  rw [redact_pii]
  by_cases he : (config.getD {}).enabled
  · rw [if_neg (by simp [he])]
    exact redactRun_invariants _ content
  · rw [if_pos (by simp [he])]
    simp

/-- C10: an empty `patterns` list selects the whole catalog exactly like
an absent one, while a non-empty list of only unknown names selects no
pattern at all, so redaction returns the input unchanged with
`has_pii = false`; `contains_pii` treats its `patterns` argument the same
way. -/
theorem pii_patterns_selection (content : String) (ps : List String)
    (hps : ps ≠ []) (hunk : ∀ n ∈ ps, n ∉ get_available_patterns) :
    redact_pii content (some ⟨true, some [], false⟩)
      = redact_pii content (some ⟨true, none, false⟩) ∧
    redact_pii content (some ⟨true, some ps, false⟩) = ⟨content, [], [], false⟩ ∧
    contains_pii content (some []) = contains_pii content none ∧
    contains_pii content (some ps) = false := by
  have hsel : patternsOf (some ps) = [] := by
    rw [patternsOf, if_neg (by simpa using hps)]
    rw [List.filter_eq_nil_iff]
    intro p hp
    intro hcon
    exact hunk p.name (by simpa using hcon)
      (List.mem_map.mpr ⟨p, hp, rfl⟩)
  have h1 := redact_pii_enabled_eq content (some []) false
  have h2 := redact_pii_enabled_eq content none false
  have h3 := redact_pii_enabled_eq content (some ps) false
  have hpe : patternsOf (some ([] : List String)) = patternsOf none := rfl
  refine ⟨?_, ?_, ?_, ?_⟩
  · rw [h1, h2, hpe]
  · rw [h3, hsel, redactRun, List.foldl_nil]
    have hcl : String.mk content.toList = content := by
      cases content
      rfl
    simp [hcl]
  · rw [contains_pii, contains_pii, hpe]
  · rw [contains_pii, hsel]
    rfl

/-- C10 witness: the unknown pattern name `bogus` against a sample
input. -/
theorem pii_patterns_selection_witness :
    redact_pii "a@b.co" (some ⟨true, some [], false⟩)
      = redact_pii "a@b.co" (some ⟨true, none, false⟩) ∧
    redact_pii "a@b.co" (some ⟨true, some ["bogus"], false⟩) = ⟨"a@b.co", [], [], false⟩ ∧
    contains_pii "a@b.co" (some []) = contains_pii "a@b.co" none ∧
    contains_pii "a@b.co" (some ["bogus"]) = false :=
  pii_patterns_selection "a@b.co" ["bogus"] (by decide) (by decide)

/-! ## Logger payload claim (C5) -/

/-- Evaluation of the redaction engine on the C5 content: the phone number
is redacted and reported once. -/
theorem redact_phone_call_eval :
    redact_pii "call 555-123-4567" (some ⟨true, none, false⟩) =
      ⟨"call [PHONE_REDACTED]", ["phone: 1 instance(s)"], [("phone", 1)], true⟩ := by
  decide

/-- C5: with redaction enabled, after `start_trace`, logging a user
message `call 555-123-4567` (no caller metadata) produces an outbound
payload whose `content` is `call [PHONE_REDACTED]` and whose metadata
carries a `pii_redactions` entry `phone: 1 instance(s)`. -/
theorem log_redacts_phone_payload (pk : String) (tid : Option String) (vn : Option Int)
    (fresh fresh2 src : String) (model : Option String) (it ot dm : Option Int) :
    ((loggerLog (startTrace pk tid vn fresh).1 true src "user" "call 555-123-4567"
        model it ot dm none none fresh2).2.content = "call [PHONE_REDACTED]") ∧
    ((loggerLog (startTrace pk tid vn fresh).1 true src "user" "call 555-123-4567"
        model it ot dm none none fresh2).2.metadata =
      some [("pii_redactions", .strList ["phone: 1 instance(s)"])]) := by
  rw [loggerLog]
  simp only [Option.getD, redact_phone_call_eval]
  constructor
  · rfl
  · rfl

/-! ## Idempotence development: list and matcher basics -/

theorem headW_append_ne (x y : List Char) (hx : x ≠ []) : headW (x ++ y) = headW x := by
  cases x with
  | nil => exact absurd rfl hx
  | cons c rest => rfl

theorem take_append_le (n : Nat) (l1 l2 : List Char) (h : n ≤ l1.length) :
    (l1 ++ l2).take n = l1.take n := by
  induction l1 generalizing n with
  | nil =>
    have : n = 0 := by simpa using h
    subst this
    rfl
  | cons c rest ih =>
    cases n with
    | zero => rfl
    | succ m =>
      simp only [List.cons_append, List.take_succ_cons]
      rw [ih m (by simpa using h)]

theorem drop_append_le (n : Nat) (l1 l2 : List Char) (h : n ≤ l1.length) :
    (l1 ++ l2).drop n = l1.drop n ++ l2 := by
  induction l1 generalizing n with
  | nil =>
    have : n = 0 := by simpa using h
    subst this
    rfl
  | cons c rest ih =>
    cases n with
    | zero => rfl
    | succ m =>
      simp only [List.cons_append, List.drop_succ_cons]
      exact ih m (by simpa using h)

theorem wAt_zero (pw : Bool) (s : List Char) : wAt pw s 0 = pw := rfl

theorem wAt_succ (pw : Bool) (s : List Char) (n : Nat) :
    wAt pw s (n + 1) = headW (s.drop n) := by
  rw [wAt, if_neg (by omega)]
  norm_num

theorem wAt_append_le (pw : Bool) (l1 l2 : List Char) (n : Nat) (h : n ≤ l1.length) :
    wAt pw (l1 ++ l2) n = wAt pw l1 n := by
  cases n with
  | zero => rfl
  | succ m =>
    rw [wAt_succ, wAt_succ, drop_append_le m l1 l2 (by omega), headW_append_ne]
    intro hd
    have := congrArg List.length hd
    simp only [List.length_drop, List.length_nil] at this
    omega

theorem wEnd_cons (pw : Bool) (c : Char) (l : List Char) :
    wEnd pw (c :: l) = wEnd (isWordCh c) l := by
  rw [wEnd, wEnd]
  cases l with
  | nil => rfl
  | cons d rest =>
    simp only [List.length_cons]
    rw [wAt_succ, wAt_succ]
    cases hr : (d :: rest).drop rest.length with
    | nil =>
      have := congrArg List.length hr
      simp at this
    | cons e tail =>
      have : (c :: d :: rest).drop (rest.length + 1) = (d :: rest).drop rest.length := rfl
      rw [this, hr]

theorem runLen_le_length (p : Char → Bool) (s : List Char) : runLen p s ≤ s.length := by
  rw [runLen]
  induction s with
  | nil => simp
  | cons c rest ih =>
    by_cases hc : p c
    · simp only [List.takeWhile_cons, hc, if_true, List.length_cons]
      omega
    · simp only [List.takeWhile_cons, hc]
      simp

theorem runLen_cons (p : Char → Bool) (c : Char) (rest : List Char) :
    runLen p (c :: rest) = if p c then runLen p rest + 1 else 0 := by
  by_cases hc : p c <;> simp [runLen, List.takeWhile_cons, hc]

theorem take_of_runLen (p : Char → Bool) (s : List Char) (n : Nat) (h : n ≤ runLen p s) :
    ∀ c ∈ s.take n, p c = true := by
  induction s generalizing n with
  | nil => simp
  | cons c rest ih =>
    cases n with
    | zero => simp
    | succ m =>
      rw [runLen_cons] at h
      by_cases hc : p c
      · rw [if_pos hc] at h
        intro d hd
        rcases List.mem_cons.mp (by simpa using hd) with rfl | hd'
        · exact hc
        · exact ih m (by omega) d hd'
      · rw [if_neg hc] at h
        omega

theorem runLen_ge_of_take (p : Char → Bool) (s : List Char) (n : Nat)
    (hn : n ≤ s.length) (h : ∀ c ∈ s.take n, p c = true) : n ≤ runLen p s := by
  induction s generalizing n with
  | nil =>
    have h0 : runLen p ([] : List Char) = 0 := rfl
    rw [h0]
    simpa using hn
  | cons c rest ih =>
    cases n with
    | zero => omega
    | succ m =>
      rw [runLen_cons, if_pos (h c (by simp))]
      have := ih m (by simpa using hn) (fun d hd => h d (by simp [hd]))
      omega

theorem mem_repEnds (lo : Nat) (hi : Option Nat) (p : Char → Bool) (s : List Char) (n : Nat) :
    n ∈ repEnds lo hi p s ↔ lo ≤ n ∧ n ≤ repCap hi (runLen p s) := by
  rw [repEnds]
  by_cases hm : lo ≤ repCap hi (runLen p s)
  · rw [if_pos hm]
    simp only [List.mem_map, List.mem_range]
    constructor
    · rintro ⟨k, hk, rfl⟩
      omega
    · intro ⟨h1, h2⟩
      exact ⟨repCap hi (runLen p s) - n, by omega, by omega⟩
  · rw [if_neg hm]
    simp only [List.not_mem_nil, false_iff]
    omega

theorem repCap_le_run (hi : Option Nat) (n : Nat) : repCap hi n ≤ n := by
  cases hi with
  | none => exact Nat.le_refl n
  | some h => exact Nat.min_le_left n h

theorem mem_matchEnds_seq (a b : Reg) (pw : Bool) (s : List Char) (n : Nat) :
    n ∈ matchEnds (.seq a b) pw s ↔
      ∃ la ∈ matchEnds a pw s, ∃ lb ∈ matchEnds b (wAt pw s la) (s.drop la), n = lb + la := by
  rw [matchEnds]
  simp only [List.mem_flatMap, List.mem_map]
  constructor
  · rintro ⟨la, hla, lb, hlb, rfl⟩
    exact ⟨la, hla, lb, hlb, rfl⟩
  · rintro ⟨la, hla, lb, hlb, rfl⟩
    exact ⟨la, hla, lb, hlb, rfl⟩

theorem matchEnds_le_length (r : Reg) :
    ∀ pw s n, n ∈ matchEnds r pw s → n ≤ s.length := by
  induction r with
  | cls p =>
    intro pw s n hn
    cases s with
    | nil => simp [matchEnds] at hn
    | cons c rest =>
      rw [matchEnds] at hn
      by_cases hc : p c
      · rw [if_pos hc] at hn
        rcases List.mem_singleton.mp hn with rfl
        simp
      · rw [if_neg hc] at hn
        simp at hn
  | seq a b iha ihb =>
    intro pw s n hn
    rcases (mem_matchEnds_seq a b pw s n).mp hn with ⟨la, hla, lb, hlb, rfl⟩
    have h1 := iha pw s la hla
    have h2 := ihb (wAt pw s la) (s.drop la) lb hlb
    rw [List.length_drop] at h2
    omega
  | alt a b iha ihb =>
    intro pw s n hn
    rcases List.mem_append.mp hn with hn | hn
    · exact iha pw s n hn
    · exact ihb pw s n hn
  | opt a iha =>
    intro pw s n hn
    rcases List.mem_append.mp hn with hn | hn
    · exact iha pw s n hn
    · rcases List.mem_singleton.mp hn with rfl
      omega
  | bnd =>
    intro pw s n hn
    rw [matchEnds] at hn
    by_cases hb : pw != headW s
    · rw [if_pos hb] at hn
      rcases List.mem_singleton.mp hn with rfl
      omega
    · rw [if_neg hb] at hn
      simp at hn
  | repCls lo hi p =>
    intro pw s n hn
    have := (mem_repEnds lo hi p s n).mp hn
    have h1 := repCap_le_run hi (runLen p s)
    have h2 := runLen_le_length p s
    omega

theorem matchEnds_minLen (r : Reg) :
    ∀ pw s n, n ∈ matchEnds r pw s → minLen r ≤ n := by
  induction r with
  | cls p =>
    intro pw s n hn
    cases s with
    | nil => simp [matchEnds] at hn
    | cons c rest =>
      rw [matchEnds] at hn
      by_cases hc : p c
      · rw [if_pos hc] at hn
        rcases List.mem_singleton.mp hn with rfl
        exact Nat.le_refl 1
      · rw [if_neg hc] at hn
        simp at hn
  | seq a b iha ihb =>
    intro pw s n hn
    rcases (mem_matchEnds_seq a b pw s n).mp hn with ⟨la, hla, lb, hlb, rfl⟩
    have h1 := iha pw s la hla
    have h2 := ihb (wAt pw s la) (s.drop la) lb hlb
    rw [minLen]
    omega
  | alt a b iha ihb =>
    intro pw s n hn
    rw [minLen]
    rcases List.mem_append.mp hn with hn | hn
    · have := iha pw s n hn
      omega
    · have := ihb pw s n hn
      omega
  | opt a iha =>
    intro pw s n hn
    rw [minLen]
    omega
  | bnd =>
    intro pw s n hn
    rw [minLen]
    omega
  | repCls lo hi p =>
    intro pw s n hn
    have := (mem_repEnds lo hi p s n).mp hn
    rw [minLen]
    omega

theorem matchEnds_zero_canE (r : Reg) :
    ∀ pw s, 0 ∈ matchEnds r pw s → canE r = true := by
  induction r with
  | cls p =>
    intro pw s hn
    cases s with
    | nil => simp [matchEnds] at hn
    | cons c rest =>
      rw [matchEnds] at hn
      by_cases hc : p c
      · rw [if_pos hc] at hn
        simp at hn
      · rw [if_neg hc] at hn
        simp at hn
  | seq a b iha ihb =>
    intro pw s hn
    rcases (mem_matchEnds_seq a b pw s 0).mp hn with ⟨la, hla, lb, hlb, hsum⟩
    have hla0 : la = 0 := by omega
    have hlb0 : lb = 0 := by omega
    subst hla0
    subst hlb0
    rw [canE, Bool.and_eq_true]
    exact ⟨iha pw s hla, ihb _ _ hlb⟩
  | alt a b iha ihb =>
    intro pw s hn
    rw [canE, Bool.or_eq_true]
    rcases List.mem_append.mp hn with hn | hn
    · exact Or.inl (iha pw s hn)
    · exact Or.inr (ihb pw s hn)
  | opt a iha =>
    intro pw s hn
    rfl
  | bnd =>
    intro pw s hn
    rfl
  | repCls lo hi p =>
    intro pw s hn
    have := (mem_repEnds lo hi p s 0).mp hn
    rw [canE]
    simp only [beq_iff_eq]
    omega

/-! ## Idempotence development: span properties of matches -/

theorem matchEnds_alph (r : Reg) (A : Char → Bool) (hA : RegAlph r A) :
    ∀ pw s n, n ∈ matchEnds r pw s → ∀ c ∈ s.take n, A c = true := by
  induction r with
  | cls p =>
    intro pw s n hn c hc
    cases s with
    | nil => simp [matchEnds] at hn
    | cons d rest =>
      rw [matchEnds] at hn
      by_cases hd : p d
      · rw [if_pos hd] at hn
        rcases List.mem_singleton.mp hn with rfl
        have hcd : c = d := List.mem_singleton.mp (by simpa using hc)
        rw [hcd]
        exact hA d hd
      · rw [if_neg hd] at hn
        simp at hn
  | seq a b iha ihb =>
    intro pw s n hn c hc
    rcases (mem_matchEnds_seq a b pw s n).mp hn with ⟨la, hla, lb, hlb, rfl⟩
    rw [show lb + la = la + lb from by omega, List.take_add] at hc
    rcases List.mem_append.mp hc with hc | hc
    · exact iha hA.1 pw s la hla c hc
    · exact ihb hA.2 (wAt pw s la) (s.drop la) lb hlb c hc
  | alt a b iha ihb =>
    intro pw s n hn
    rcases List.mem_append.mp hn with hn | hn
    · exact iha hA.1 pw s n hn
    · exact ihb hA.2 pw s n hn
  | opt a iha =>
    intro pw s n hn
    rcases List.mem_append.mp hn with hn | hn
    · exact iha hA pw s n hn
    · rcases List.mem_singleton.mp hn with rfl
      simp
  | bnd =>
    intro pw s n hn
    rw [matchEnds] at hn
    by_cases hb : pw != headW s
    · rw [if_pos hb] at hn
      rcases List.mem_singleton.mp hn with rfl
      simp
    · rw [if_neg hb] at hn
      simp at hn
  | repCls lo hi p =>
    intro pw s n hn c hc
    have hm := (mem_repEnds lo hi p s n).mp hn
    have hcap := repCap_le_run hi (runLen p s)
    exact hA c (take_of_runLen p s n (by omega) c hc)

theorem matchEnds_wit (r : Reg) (W : Char → Bool) (hW : MustWit r W) :
    ∀ pw s n, n ∈ matchEnds r pw s → ∃ c ∈ s.take n, W c = true := by
  induction r with
  | cls p =>
    intro pw s n hn
    cases s with
    | nil => simp [matchEnds] at hn
    | cons d rest =>
      rw [matchEnds] at hn
      by_cases hd : p d
      · rw [if_pos hd] at hn
        rcases List.mem_singleton.mp hn with rfl
        exact ⟨d, by simp, hW d hd⟩
      · rw [if_neg hd] at hn
        simp at hn
  | seq a b iha ihb =>
    intro pw s n hn
    rcases (mem_matchEnds_seq a b pw s n).mp hn with ⟨la, hla, lb, hlb, rfl⟩
    rw [show lb + la = la + lb from by omega, List.take_add]
    rcases hW with hW | hW
    · rcases iha hW pw s la hla with ⟨c, hc, hWc⟩
      exact ⟨c, List.mem_append.mpr (Or.inl hc), hWc⟩
    · rcases ihb hW (wAt pw s la) (s.drop la) lb hlb with ⟨c, hc, hWc⟩
      exact ⟨c, List.mem_append.mpr (Or.inr hc), hWc⟩
  | alt a b iha ihb =>
    intro pw s n hn
    rcases List.mem_append.mp hn with hn | hn
    · exact iha hW.1 pw s n hn
    · exact ihb hW.2 pw s n hn
  | opt a iha =>
    intro pw s n hn
    exact absurd hW (by rw [MustWit]; exact not_false)
  | bnd =>
    intro pw s n hn
    exact absurd hW (by rw [MustWit]; exact not_false)
  | repCls lo hi p =>
    intro pw s n hn
    have hm := (mem_repEnds lo hi p s n).mp hn
    have hcap := repCap_le_run hi (runLen p s)
    have hlo := hW.1
    cases s with
    | nil =>
      have h0 : runLen p ([] : List Char) = 0 := rfl
      rw [h0] at hcap hm
      omega
    | cons d rest =>
      have hrun : 1 ≤ runLen p (d :: rest) := by omega
      rw [runLen_cons] at hrun
      by_cases hd : p d
      · refine ⟨d, ?_, hW.2 d hd⟩
        have h1 : 1 ≤ n := by omega
        cases n with
        | zero => omega
        | succ m => simp
      · rw [if_neg hd] at hrun
        omega

theorem matchEnds_firstIn (r : Reg) (W : Char → Bool) (hW : FirstIn r W) :
    ∀ pw s n, n ∈ matchEnds r pw s → 1 ≤ n → ∃ c, s.head? = some c ∧ W c = true := by
  induction r with
  | cls p =>
    intro pw s n hn _
    cases s with
    | nil => simp [matchEnds] at hn
    | cons d rest =>
      rw [matchEnds] at hn
      by_cases hd : p d
      · exact ⟨d, rfl, hW d hd⟩
      · rw [if_neg hd] at hn
        simp at hn
  | seq a b iha ihb =>
    intro pw s n hn h1
    rcases (mem_matchEnds_seq a b pw s n).mp hn with ⟨la, hla, lb, hlb, rfl⟩
    cases Nat.eq_zero_or_pos la with
    | inr hpos => exact iha hW.1 pw s la hla hpos
    | inl hz =>
      subst hz
      rw [wAt_zero, List.drop_zero] at hlb
      exact ihb (hW.2 (matchEnds_zero_canE a pw s hla)) pw s lb hlb (by omega)
  | alt a b iha ihb =>
    intro pw s n hn h1
    rcases List.mem_append.mp hn with hn | hn
    · exact iha hW.1 pw s n hn h1
    · exact ihb hW.2 pw s n hn h1
  | opt a iha =>
    intro pw s n hn h1
    rcases List.mem_append.mp hn with hn | hn
    · exact iha hW pw s n hn h1
    · rcases List.mem_singleton.mp hn with rfl
      omega
  | bnd =>
    intro pw s n hn h1
    rw [matchEnds] at hn
    by_cases hb : pw != headW s
    · rw [if_pos hb] at hn
      rcases List.mem_singleton.mp hn with rfl
      omega
    · rw [if_neg hb] at hn
      simp at hn
  | repCls lo hi p =>
    intro pw s n hn h1
    have hm := (mem_repEnds lo hi p s n).mp hn
    have hcap := repCap_le_run hi (runLen p s)
    cases s with
    | nil =>
      have h0 : runLen p ([] : List Char) = 0 := rfl
      rw [h0] at hcap hm
      omega
    | cons d rest =>
      have hrun : 1 ≤ runLen p (d :: rest) := by omega
      rw [runLen_cons] at hrun
      by_cases hd : p d
      · exact ⟨d, rfl, hW d hd⟩
      · rw [if_neg hd] at hrun
        omega

theorem matchEnds_lastIn (r : Reg) (W : Char → Bool) (hW : LastIn r W) :
    ∀ pw s n, n ∈ matchEnds r pw s → 1 ≤ n →
      ∃ c, (s.take n).getLast? = some c ∧ W c = true := by
  induction r with
  | cls p =>
    intro pw s n hn _
    cases s with
    | nil => simp [matchEnds] at hn
    | cons d rest =>
      rw [matchEnds] at hn
      by_cases hd : p d
      · rw [if_pos hd] at hn
        rcases List.mem_singleton.mp hn with rfl
        exact ⟨d, by simp, hW d hd⟩
      · rw [if_neg hd] at hn
        simp at hn
  | seq a b iha ihb =>
    intro pw s n hn h1
    rcases (mem_matchEnds_seq a b pw s n).mp hn with ⟨la, hla, lb, hlb, rfl⟩
    cases Nat.eq_zero_or_pos lb with
    | inl hz =>
      subst hz
      have hce := matchEnds_zero_canE b _ _ hlb
      simpa using iha (hW.1 hce) pw s la hla (by omega)
    | inr hpos =>
      rcases ihb hW.2 (wAt pw s la) (s.drop la) lb hlb hpos with ⟨c, hc, hWc⟩
      refine ⟨c, ?_, hWc⟩
      rw [show lb + la = la + lb from by omega, List.take_add, List.getLast?_append, hc]
      rfl
  | alt a b iha ihb =>
    intro pw s n hn h1
    rcases List.mem_append.mp hn with hn | hn
    · exact iha hW.1 pw s n hn h1
    · exact ihb hW.2 pw s n hn h1
  | opt a iha =>
    intro pw s n hn h1
    rcases List.mem_append.mp hn with hn | hn
    · exact iha hW pw s n hn h1
    · rcases List.mem_singleton.mp hn with rfl
      omega
  | bnd =>
    intro pw s n hn h1
    rw [matchEnds] at hn
    by_cases hb : pw != headW s
    · rw [if_pos hb] at hn
      rcases List.mem_singleton.mp hn with rfl
      omega
    · rw [if_neg hb] at hn
      simp at hn
  | repCls lo hi p =>
    intro pw s n hn h1
    have hm := (mem_repEnds lo hi p s n).mp hn
    have hcap := repCap_le_run hi (runLen p s)
    have hlen := runLen_le_length p s
    have hne : s.take n ≠ [] := by
      intro hemp
      have := congrArg List.length hemp
      simp only [List.length_take, List.length_nil] at this
      omega
    refine ⟨(s.take n).getLast hne, List.getLast?_eq_getLast _ hne, ?_⟩
    exact hW _ (take_of_runLen p s n (by omega) _ (List.getLast_mem hne))

/-! ## Idempotence development: context transfer -/

theorem matchEnds_transfer (r : Reg) :
    ∀ pw sp rest rest' n, n ∈ matchEnds r pw (sp ++ rest) → n ≤ sp.length →
    (n = sp.length → headW rest = headW rest') →
    n ∈ matchEnds r pw (sp ++ rest') := by
  induction r with
  | cls p =>
    intro pw sp rest rest' n hn hle _
    have h1 : 1 ≤ n := matchEnds_minLen (.cls p) pw (sp ++ rest) n hn
    cases sp with
    | nil => simp at hle; omega
    | cons d sp' =>
      rw [List.cons_append, matchEnds] at hn ⊢
      exact hn
  | seq a b iha ihb =>
    intro pw sp rest rest' n hn hle hcond
    rcases (mem_matchEnds_seq a b pw (sp ++ rest) n).mp hn with ⟨la, hla, lb, hlb, rfl⟩
    have hla' : la ∈ matchEnds a pw (sp ++ rest') := by
      refine iha pw sp rest rest' la hla (by omega) (fun heq => hcond (by omega))
    have hwa : wAt pw (sp ++ rest) la = wAt pw (sp ++ rest') la := by
      rw [wAt_append_le pw sp rest la (by omega), wAt_append_le pw sp rest' la (by omega)]
    rw [drop_append_le la sp rest (by omega)] at hlb
    have hlb' : lb ∈ matchEnds b (wAt pw (sp ++ rest) la) (sp.drop la ++ rest') := by
      refine ihb _ (sp.drop la) rest rest' lb hlb ?_ ?_
      · rw [List.length_drop]; omega
      · intro heq
        rw [List.length_drop] at heq
        exact hcond (by omega)
    rw [mem_matchEnds_seq]
    refine ⟨la, hla', lb, ?_, rfl⟩
    rw [drop_append_le la sp rest' (by omega), ← hwa]
    exact hlb'
  | alt a b iha ihb =>
    intro pw sp rest rest' n hn hle hcond
    rcases List.mem_append.mp hn with hn | hn
    · exact List.mem_append.mpr (Or.inl (iha pw sp rest rest' n hn hle hcond))
    · exact List.mem_append.mpr (Or.inr (ihb pw sp rest rest' n hn hle hcond))
  | opt a iha =>
    intro pw sp rest rest' n hn hle hcond
    rcases List.mem_append.mp hn with hn | hn
    · exact List.mem_append.mpr (Or.inl (iha pw sp rest rest' n hn hle hcond))
    · exact List.mem_append.mpr (Or.inr hn)
  | bnd =>
    intro pw sp rest rest' n hn hle hcond
    rw [matchEnds] at hn ⊢
    have hn0 : n = 0 := by
      by_cases hb : pw != headW (sp ++ rest)
      · rw [if_pos hb] at hn
        exact List.mem_singleton.mp hn
      · rw [if_neg hb] at hn
        simp at hn
    subst hn0
    cases sp with
    | nil =>
      have hh : headW rest = headW rest' := hcond rfl
      simp only [List.nil_append] at hn ⊢
      by_cases hb : pw != headW rest
      · rw [if_pos hb] at hn
        rw [if_pos (by rw [← hh]; exact hb)]
        exact hn
      · rw [if_neg hb] at hn
        simp at hn
    | cons d sp' =>
      rw [List.cons_append] at hn ⊢
      exact hn
  | repCls lo hi p =>
    intro pw sp rest rest' n hn hle _
    have hm := (mem_repEnds lo hi p (sp ++ rest) n).mp hn
    rw [matchEnds] at *
    rw [mem_repEnds]
    refine ⟨hm.1, ?_⟩
    have hrn : n ≤ runLen p (sp ++ rest) := le_trans hm.2 (repCap_le_run _ _)
    have hpn : ∀ c ∈ (sp ++ rest').take n, p c = true := by
      rw [take_append_le n sp rest' hle]
      have htk := take_of_runLen p (sp ++ rest) n hrn
      rw [take_append_le n sp rest hle] at htk
      exact htk
    have hrun' : n ≤ runLen p (sp ++ rest') := by
      refine runLen_ge_of_take p (sp ++ rest') n ?_ hpn
      rw [List.length_append]
      omega
    cases hi with
    | none => exact hrun'
    | some h =>
      rw [repCap] at hm ⊢
      have : n ≤ h := le_trans hm.2 (Nat.min_le_right _ _)
      exact Nat.le_min.mpr ⟨hrun', this⟩

theorem matchEnds_bndFree_pw (r : Reg) :
    bndFree r = true → ∀ pw pw' s, matchEnds r pw s = matchEnds r pw' s := by
  induction r with
  | cls p => intro _ pw pw' s; rfl
  | seq a b iha ihb =>
    intro hb pw pw' s
    rw [bndFree, Bool.and_eq_true] at hb
    rw [matchEnds, matchEnds, iha hb.1 pw pw' s]
    have hfun : (fun la => (matchEnds b (wAt pw s la) (s.drop la)).map (· + la))
        = (fun la => (matchEnds b (wAt pw' s la) (s.drop la)).map (· + la)) := by
      funext la
      rw [ihb hb.2 (wAt pw s la) (wAt pw' s la) (s.drop la)]
    rw [hfun]
  | alt a b iha ihb =>
    intro hb pw pw' s
    rw [bndFree, Bool.and_eq_true] at hb
    rw [matchEnds, matchEnds, iha hb.1 pw pw' s, ihb hb.2 pw pw' s]
  | opt a iha =>
    intro hb pw pw' s
    rw [matchEnds, matchEnds, iha hb pw pw' s]
  | bnd =>
    intro hb
    cases hb
  | repCls lo hi p =>
    intro _ pw pw' s
    rfl

theorem matchEnds_bndFree_transfer (r : Reg) :
    bndFree r = true → ∀ pw pw' sp rest rest' n, n ∈ matchEnds r pw (sp ++ rest) →
    n ≤ sp.length → n ∈ matchEnds r pw' (sp ++ rest') := by
  induction r with
  | cls p =>
    intro _ pw pw' sp rest rest' n hn hle
    have h1 : 1 ≤ n := matchEnds_minLen (.cls p) pw (sp ++ rest) n hn
    cases sp with
    | nil => simp at hle; omega
    | cons d sp' =>
      rw [List.cons_append, matchEnds] at hn ⊢
      exact hn
  | seq a b iha ihb =>
    intro hb pw pw' sp rest rest' n hn hle
    rw [bndFree, Bool.and_eq_true] at hb
    rcases (mem_matchEnds_seq a b pw (sp ++ rest) n).mp hn with ⟨la, hla, lb, hlb, rfl⟩
    have hla' : la ∈ matchEnds a pw' (sp ++ rest') :=
      iha hb.1 pw pw' sp rest rest' la hla (by omega)
    rw [drop_append_le la sp rest (by omega)] at hlb
    have hlb' : lb ∈ matchEnds b (wAt pw' (sp ++ rest') la) (sp.drop la ++ rest') := by
      refine ihb hb.2 _ _ (sp.drop la) rest rest' lb hlb ?_
      rw [List.length_drop]; omega
    rw [mem_matchEnds_seq]
    refine ⟨la, hla', lb, ?_, rfl⟩
    rw [drop_append_le la sp rest' (by omega)]
    exact hlb'
  | alt a b iha ihb =>
    intro hb pw pw' sp rest rest' n hn hle
    rw [bndFree, Bool.and_eq_true] at hb
    rcases List.mem_append.mp hn with hn | hn
    · exact List.mem_append.mpr (Or.inl (iha hb.1 pw pw' sp rest rest' n hn hle))
    · exact List.mem_append.mpr (Or.inr (ihb hb.2 pw pw' sp rest rest' n hn hle))
  | opt a iha =>
    intro hb pw pw' sp rest rest' n hn hle
    rcases List.mem_append.mp hn with hn | hn
    · exact List.mem_append.mpr (Or.inl (iha hb pw pw' sp rest rest' n hn hle))
    · exact List.mem_append.mpr (Or.inr hn)
  | bnd =>
    intro hb
    cases hb
  | repCls lo hi p =>
    intro _ pw pw' sp rest rest' n hn hle
    have hm := (mem_repEnds lo hi p (sp ++ rest) n).mp hn
    rw [matchEnds] at *
    rw [mem_repEnds]
    refine ⟨hm.1, ?_⟩
    have hrn : n ≤ runLen p (sp ++ rest) := le_trans hm.2 (repCap_le_run _ _)
    have hpn : ∀ c ∈ (sp ++ rest').take n, p c = true := by
      rw [take_append_le n sp rest' hle]
      have htk := take_of_runLen p (sp ++ rest) n hrn
      rw [take_append_le n sp rest hle] at htk
      exact htk
    have hrun' : n ≤ runLen p (sp ++ rest') := by
      refine runLen_ge_of_take p (sp ++ rest') n ?_ hpn
      rw [List.length_append]
      omega
    cases hi with
    | none => exact hrun'
    | some h =>
      rw [repCap] at hm ⊢
      have hh : n ≤ h := le_trans hm.2 (Nat.min_le_right _ _)
      exact Nat.le_min.mpr ⟨hrun', hh⟩

theorem matchEnds_seqBnd_left (core : Reg) (pw : Bool) (s : List Char) (n : Nat)
    (hn : n ∈ matchEnds (.seq .bnd (.seq core .bnd)) pw s) : pw ≠ headW s := by
  rcases (mem_matchEnds_seq _ _ pw s n).mp hn with ⟨la, hla, lb, hlb, rfl⟩
  rw [matchEnds] at hla
  by_cases hb : pw != headW s
  · exact ne_of_beq_false (by simpa using hb)
  · rw [if_neg hb] at hla
    simp at hla

theorem matchEnds_seqBnd_right (core : Reg) (pw : Bool) (s : List Char) (n : Nat)
    (hn : n ∈ matchEnds (.seq .bnd (.seq core .bnd)) pw s) :
    wAt pw s n ≠ headW (s.drop n) := by
  rcases (mem_matchEnds_seq _ _ pw s n).mp hn with ⟨la, hla, lb, hlb, rfl⟩
  have hla0 : la = 0 := by
    rw [matchEnds] at hla
    by_cases hb : pw != headW s
    · rw [if_pos hb] at hla
      exact List.mem_singleton.mp hla
    · rw [if_neg hb] at hla
      simp at hla
  subst hla0
  rw [wAt_zero, List.drop_zero] at hlb
  rcases (mem_matchEnds_seq core .bnd pw s lb).mp hlb with ⟨lc, hlc, ld, hld, rfl⟩
  rw [matchEnds] at hld
  by_cases hb : wAt pw s lc != headW (s.drop lc)
  · rw [if_pos hb] at hld
    have hld0 : ld = 0 := List.mem_singleton.mp hld
    subst hld0
    simp only [Nat.zero_add, Nat.add_zero]
    exact ne_of_beq_false (by simpa using hb)
  · rw [if_neg hb] at hld
    simp at hld

theorem reFirst_none_of_headW (r : Reg) (hf : FirstIn r isWordCh) (hm : 1 ≤ minLen r)
    (X : List Char) (hX : headW X = false) (pw : Bool) : reFirst r pw X = none := by
  rw [reFirst]
  cases hms : matchEnds r pw X with
  | nil => rfl
  | cons n tail =>
    exfalso
    have hmem : n ∈ matchEnds r pw X := by rw [hms]; simp
    have h1 : 1 ≤ n := le_trans hm (matchEnds_minLen r pw X n hmem)
    rcases matchEnds_firstIn r isWordCh hf pw X n hmem h1 with ⟨c, hc, hw⟩
    cases X with
    | nil => cases hc
    | cons d t =>
      have hcd : c = d := by
        rw [List.head?_cons] at hc
        exact (Option.some_inj.mp hc).symm
      rw [hcd] at hw
      rw [show headW (d :: t) = isWordCh d from rfl, hw] at hX
      cases hX

/-! ## Idempotence development: scanner equations -/

theorem reCountGo_succ_match (r : Reg) (fuel : Nat) (pw : Bool) (c : Char)
    (rest : List Char) (l : Nat) (h : reFirst r pw (c :: rest) = some (l + 1)) :
    reCountGo r (fuel + 1) pw (c :: rest)
      = 1 + reCountGo r fuel (wAt pw (c :: rest) (l + 1)) (rest.drop l) := by
  rw [reCountGo, h]

theorem reCountGo_succ_nomatch (r : Reg) (fuel : Nat) (pw : Bool) (c : Char)
    (rest : List Char) (h : ∀ l, reFirst r pw (c :: rest) ≠ some (l + 1)) :
    reCountGo r (fuel + 1) pw (c :: rest) = reCountGo r fuel (isWordCh c) rest := by
  rw [reCountGo]
  cases hf : reFirst r pw (c :: rest) with
  | none => rfl
  | some l =>
    cases l with
    | zero => rfl
    | succ l' => exact absurd hf (h l')

theorem reSubGo_succ_match (r : Reg) (T : List Char) (fuel : Nat) (pw : Bool) (c : Char)
    (rest : List Char) (l : Nat) (h : reFirst r pw (c :: rest) = some (l + 1)) :
    reSubGo r T (fuel + 1) pw (c :: rest)
      = T ++ reSubGo r T fuel (wAt pw (c :: rest) (l + 1)) (rest.drop l) := by
  rw [reSubGo, h]

theorem reSubGo_succ_nomatch (r : Reg) (T : List Char) (fuel : Nat) (pw : Bool) (c : Char)
    (rest : List Char) (h : ∀ l, reFirst r pw (c :: rest) ≠ some (l + 1)) :
    reSubGo r T (fuel + 1) pw (c :: rest) = c :: reSubGo r T fuel (isWordCh c) rest := by
  rw [reSubGo]
  cases hf : reFirst r pw (c :: rest) with
  | none => rfl
  | some l =>
    cases l with
    | zero => rfl
    | succ l' => exact absurd hf (h l')

theorem reCountGo_fuel (r : Reg) :
    ∀ fuel fuel' pw s, s.length ≤ fuel → s.length ≤ fuel' →
    reCountGo r fuel pw s = reCountGo r fuel' pw s := by
  intro fuel
  induction fuel with
  | zero =>
    intro fuel' pw s h _
    have hs : s = [] := List.length_eq_zero.mp (by omega)
    subst hs
    cases fuel' <;> rfl
  | succ f ih =>
    intro fuel' pw s h h'
    cases s with
    | nil => cases fuel' <;> rfl
    | cons c rest =>
      cases fuel' with
      | zero => simp at h'
      | succ f' =>
        simp only [List.length_cons] at h h'
        cases hf : reFirst r pw (c :: rest) with
        | some l =>
          cases l with
          | zero =>
            rw [reCountGo_succ_nomatch r f pw c rest (fun l hl => by rw [hf] at hl; simp at hl),
                reCountGo_succ_nomatch r f' pw c rest (fun l hl => by rw [hf] at hl; simp at hl)]
            exact ih f' (isWordCh c) rest (by omega) (by omega)
          | succ l' =>
            rw [reCountGo_succ_match r f pw c rest l' hf,
                reCountGo_succ_match r f' pw c rest l' hf]
            have hd : (rest.drop l').length ≤ f := by rw [List.length_drop]; omega
            have hd' : (rest.drop l').length ≤ f' := by rw [List.length_drop]; omega
            rw [ih f' _ _ hd hd']
        | none =>
          rw [reCountGo_succ_nomatch r f pw c rest (fun l hl => by rw [hf] at hl; cases hl),
              reCountGo_succ_nomatch r f' pw c rest (fun l hl => by rw [hf] at hl; cases hl)]
          exact ih f' (isWordCh c) rest (by omega) (by omega)

theorem reSubGo_fuel (r : Reg) (T : List Char) :
    ∀ fuel fuel' pw s, s.length ≤ fuel → s.length ≤ fuel' →
    reSubGo r T fuel pw s = reSubGo r T fuel' pw s := by
  intro fuel
  induction fuel with
  | zero =>
    intro fuel' pw s h _
    have hs : s = [] := List.length_eq_zero.mp (by omega)
    subst hs
    cases fuel' <;> rfl
  | succ f ih =>
    intro fuel' pw s h h'
    cases s with
    | nil => cases fuel' <;> rfl
    | cons c rest =>
      cases fuel' with
      | zero => simp at h'
      | succ f' =>
        simp only [List.length_cons] at h h'
        cases hf : reFirst r pw (c :: rest) with
        | some l =>
          cases l with
          | zero =>
            rw [reSubGo_succ_nomatch r T f pw c rest (fun l hl => by rw [hf] at hl; simp at hl),
                reSubGo_succ_nomatch r T f' pw c rest (fun l hl => by rw [hf] at hl; simp at hl)]
            rw [ih f' (isWordCh c) rest (by omega) (by omega)]
          | succ l' =>
            rw [reSubGo_succ_match r T f pw c rest l' hf,
                reSubGo_succ_match r T f' pw c rest l' hf]
            have hd : (rest.drop l').length ≤ f := by rw [List.length_drop]; omega
            have hd' : (rest.drop l').length ≤ f' := by rw [List.length_drop]; omega
            rw [ih f' _ _ hd hd']
        | none =>
          rw [reSubGo_succ_nomatch r T f pw c rest (fun l hl => by rw [hf] at hl; cases hl),
              reSubGo_succ_nomatch r T f' pw c rest (fun l hl => by rw [hf] at hl; cases hl)]
          rw [ih f' (isWordCh c) rest (by omega) (by omega)]

theorem countF_nil (r : Reg) (pw : Bool) : countF r pw [] = 0 := rfl

theorem countF_cons_match (r : Reg) (pw : Bool) (c : Char) (rest : List Char) (l : Nat)
    (h : reFirst r pw (c :: rest) = some (l + 1)) :
    countF r pw (c :: rest) = 1 + countF r (wAt pw (c :: rest) (l + 1)) (rest.drop l) := by
  rw [countF, countF]
  simp only [List.length_cons]
  rw [reCountGo_succ_match r rest.length pw c rest l h]
  rw [reCountGo_fuel r rest.length (rest.drop l).length _ _ (by rw [List.length_drop]; omega)
    (Nat.le_refl _)]

theorem countF_cons_nomatch (r : Reg) (pw : Bool) (c : Char) (rest : List Char)
    (h : ∀ l, reFirst r pw (c :: rest) ≠ some (l + 1)) :
    countF r pw (c :: rest) = countF r (isWordCh c) rest := by
  rw [countF, countF]
  simp only [List.length_cons]
  rw [reCountGo_succ_nomatch r rest.length pw c rest h]

theorem subF_nil (r : Reg) (T : List Char) (pw : Bool) : subF r T pw [] = [] := rfl

theorem subF_cons_match (r : Reg) (T : List Char) (pw : Bool) (c : Char) (rest : List Char)
    (l : Nat) (h : reFirst r pw (c :: rest) = some (l + 1)) :
    subF r T pw (c :: rest) = T ++ subF r T (wAt pw (c :: rest) (l + 1)) (rest.drop l) := by
  rw [subF, subF]
  simp only [List.length_cons]
  rw [reSubGo_succ_match r T rest.length pw c rest l h]
  rw [reSubGo_fuel r T rest.length (rest.drop l).length _ _ (by rw [List.length_drop]; omega)
    (Nat.le_refl _)]

theorem subF_cons_nomatch (r : Reg) (T : List Char) (pw : Bool) (c : Char) (rest : List Char)
    (h : ∀ l, reFirst r pw (c :: rest) ≠ some (l + 1)) :
    subF r T pw (c :: rest) = c :: subF r T (isWordCh c) rest := by
  rw [subF, subF]
  simp only [List.length_cons]
  rw [reSubGo_succ_nomatch r T rest.length pw c rest h]

/-! ## Idempotence development: derived scanner lemmas -/

theorem head?_some_mem (l : List Nat) (x : Nat) (h : l.head? = some x) : x ∈ l := by
  cases l with
  | nil => cases h
  | cons a t =>
    rw [List.head?_cons] at h
    rw [← Option.some_inj.mp h]
    exact List.mem_cons_self a t

theorem getLast?_mem (l : List Char) (x : Char) (h : l.getLast? = some x) : x ∈ l := by
  cases hl : l with
  | nil => subst hl; cases h
  | cons a t =>
    subst hl
    have hne : a :: t ≠ [] := by simp
    rw [List.getLast?_eq_getLast _ hne] at h
    rw [← Option.some_inj.mp h]
    exact List.getLast_mem hne

theorem take_append_ge (n : Nat) (l1 l2 : List Char) (h : l1.length ≤ n) :
    (l1 ++ l2).take n = l1 ++ l2.take (n - l1.length) := by
  induction l1 generalizing n with
  | nil => simp
  | cons c rest ih =>
    cases n with
    | zero => simp at h
    | succ m =>
      simp only [List.cons_append, List.take_succ_cons, List.length_cons]
      rw [ih m (by simpa using h)]
      simp only [Nat.succ_sub_succ]

theorem headW_true_of_head? (s : List Char) (c : Char) (h : s.head? = some c)
    (hw : isWordCh c = true) : headW s = true := by
  cases s with
  | nil => cases h
  | cons d t =>
    rw [List.head?_cons] at h
    rw [show headW (d :: t) = isWordCh d from rfl, Option.some_inj.mp h]
    exact hw

theorem wEnd_getLast (pw : Bool) (l : List Char) (c : Char) (h : l.getLast? = some c) :
    wEnd pw l = isWordCh c := by
  induction l generalizing pw with
  | nil => cases h
  | cons d t ih =>
    rw [wEnd_cons]
    cases t with
    | nil =>
      have : d = c := by simpa using h
      subst this
      rfl
    | cons e t' =>
      rw [List.getLast?_cons_cons] at h
      exact ih (isWordCh d) h

theorem countF_zero_cons (r : Reg) (pw : Bool) (c : Char) (rest : List Char)
    (h : countF r pw (c :: rest) = 0) :
    (∀ l, reFirst r pw (c :: rest) ≠ some (l + 1)) ∧ countF r (isWordCh c) rest = 0 := by
  by_cases hm : ∀ l, reFirst r pw (c :: rest) ≠ some (l + 1)
  · rw [countF_cons_nomatch r pw c rest hm] at h
    exact ⟨hm, h⟩
  · push_neg at hm
    obtain ⟨l, hl⟩ := hm
    rw [countF_cons_match r pw c rest l hl] at h
    omega

theorem subF_of_nocount (r : Reg) (T : List Char) :
    ∀ s pw, countF r pw s = 0 → subF r T pw s = s := by
  intro s
  induction s with
  | nil => intro pw _; rfl
  | cons c rest ih =>
    intro pw h
    obtain ⟨hnm, htail⟩ := countF_zero_cons r pw c rest h
    rw [subF_cons_nomatch r T pw c rest hnm, ih (isWordCh c) htail]

theorem countF_zero_drop (r : Reg) (pw : Bool) (s : List Char)
    (h : countF r pw s = 0) : ∀ k, countF r (wAt pw s k) (s.drop k) = 0 := by
  intro k
  induction k with
  | zero =>
    rw [wAt_zero, List.drop_zero]
    exact h
  | succ m ih =>
    have hdd : s.drop (m + 1) = (s.drop m).drop 1 := by
      rw [← List.drop_drop]
    cases hdm : s.drop m with
    | nil =>
      rw [hdd, hdm]
      rfl
    | cons c2 r2 =>
      rw [hdm] at ih
      obtain ⟨_, htail⟩ := countF_zero_cons r _ c2 r2 ih
      rw [hdd, hdm]
      have hwa : wAt pw s (m + 1) = isWordCh c2 := by
        rw [wAt_succ, hdm]
        rfl
      rw [hwa]
      exact htail

theorem countF_pw_of_bndFree (r : Reg) (hb : bndFree r = true) :
    ∀ s pw pw', countF r pw s = countF r pw' s := by
  intro s
  induction s with
  | nil => intro pw pw'; rfl
  | cons c rest ih =>
    intro pw pw'
    have hre : reFirst r pw (c :: rest) = reFirst r pw' (c :: rest) := by
      rw [reFirst, reFirst, matchEnds_bndFree_pw r hb pw pw' (c :: rest)]
    cases hf : reFirst r pw (c :: rest) with
    | some l =>
      cases l with
      | zero =>
        rw [countF_cons_nomatch r pw c rest (fun l hl => by rw [hf] at hl; simp at hl),
            countF_cons_nomatch r pw' c rest
              (fun l hl => by rw [← hre, hf] at hl; simp at hl)]
      | succ l' =>
        rw [countF_cons_match r pw c rest l' hf,
            countF_cons_match r pw' c rest l' (by rw [← hre]; exact hf)]
        rw [wAt_succ, wAt_succ]
    | none =>
      rw [countF_cons_nomatch r pw c rest (fun l hl => by rw [hf] at hl; cases hl),
          countF_cons_nomatch r pw' c rest (fun l hl => by rw [← hre, hf] at hl; cases hl)]

theorem countF_pw_of_nohead (r : Reg) (hf : FirstIn r isWordCh) (hm : 1 ≤ minLen r)
    (s : List Char) (hs : headW s = false) (pw pw' : Bool) :
    countF r pw s = countF r pw' s := by
  cases s with
  | nil => rfl
  | cons c rest =>
    have h1 := reFirst_none_of_headW r hf hm (c :: rest) hs pw
    have h2 := reFirst_none_of_headW r hf hm (c :: rest) hs pw'
    rw [countF_cons_nomatch r pw c rest (fun l hl => by rw [h1] at hl; cases hl),
        countF_cons_nomatch r pw' c rest (fun l hl => by rw [h2] at hl; cases hl)]

theorem countF_token_walk (r : Reg) (A W : Char → Bool)
    (hA : RegAlph r A) (hbrR : A ']' = false) (hW : MustWit r W) :
    ∀ tk X pw, tk ≠ [] → (∀ c ∈ tk, W c = false) → tk.getLast? = some ']' →
    countF r pw (tk ++ X) = countF r false X := by
  intro tk
  induction tk with
  | nil => intro X pw h; exact absurd rfl h
  | cons c tk' ih =>
    intro X pw _ hWtk hlast
    have hnm : ∀ l, reFirst r pw ((c :: tk') ++ X) ≠ some (l + 1) := by
      intro l hl
      have hmem : (l + 1) ∈ matchEnds r pw ((c :: tk') ++ X) :=
        head?_some_mem _ _ hl
      by_cases hcase : l + 1 ≤ (c :: tk').length
      · rcases matchEnds_wit r W hW pw _ (l + 1) hmem with ⟨d, hd, hWd⟩
        rw [take_append_le _ _ _ hcase] at hd
        have hdtk : d ∈ c :: tk' := List.take_subset _ _ hd
        rw [hWtk d hdtk] at hWd
        exact Bool.false_ne_true hWd
      · have hbr : (']' : Char) ∈ ((c :: tk') ++ X).take (l + 1) := by
          rw [take_append_ge _ _ _ (by omega)]
          exact List.mem_append.mpr (Or.inl (getLast?_mem _ _ hlast))
        have := matchEnds_alph r A hA pw _ (l + 1) hmem ']' hbr
        rw [hbrR] at this
        exact Bool.false_ne_true this
    rw [show (c :: tk') ++ X = c :: (tk' ++ X) from rfl] at hnm ⊢
    rw [countF_cons_nomatch r pw c (tk' ++ X) hnm]
    cases tk' with
    | nil =>
      have hc : c = ']' := by simpa using hlast
      subst hc
      rw [show isWordCh ']' = false from rfl]
      rfl
    | cons c2 tk'' =>
      refine ih X (isWordCh c) (by simp) (fun d hd => hWtk d (List.mem_cons_of_mem _ hd)) ?_
      rw [List.getLast?_cons_cons] at hlast
      exact hlast

/-! ## Idempotence development: scan decomposition -/

theorem subF_headDec (r : Reg) (T : List Char) :
    ∀ s pw, ∃ resPre t3, s = resPre ++ t3 ∧
      ((t3 = [] ∧ subF r T pw s = resPre) ∨
       (∃ l, reFirst r (wEnd pw resPre) t3 = some (l + 1) ∧
         subF r T pw s =
           resPre ++ (T ++ subF r T (wAt (wEnd pw resPre) t3 (l + 1)) (t3.drop (l + 1))))) := by
  intro s
  induction s with
  | nil =>
    intro pw
    exact ⟨[], [], rfl, Or.inl ⟨rfl, rfl⟩⟩
  | cons c rest ih =>
    intro pw
    by_cases hm : ∀ l, reFirst r pw (c :: rest) ≠ some (l + 1)
    · obtain ⟨resPre', t3, hsplit, hcase⟩ := ih (isWordCh c)
      refine ⟨c :: resPre', t3, by rw [List.cons_append, ← hsplit], ?_⟩
      rcases hcase with ⟨ht3, hout⟩ | ⟨l, hM, hout⟩
      · exact Or.inl ⟨ht3, by rw [subF_cons_nomatch r T pw c rest hm, hout]⟩
      · refine Or.inr ⟨l, ?_, ?_⟩
        · rw [wEnd_cons]
          exact hM
        · rw [subF_cons_nomatch r T pw c rest hm, hout, wEnd_cons, List.cons_append]
    · push_neg at hm
      obtain ⟨l, hl⟩ := hm
      refine ⟨[], c :: rest, rfl, Or.inr ⟨l, ?_, ?_⟩⟩
      · rw [show wEnd pw [] = pw from rfl]
        exact hl
      · rw [subF_cons_match r T pw c rest l hl]
        rw [show wEnd pw [] = pw from rfl,
          show (c :: rest).drop (l + 1) = rest.drop l from rfl, List.nil_append]

theorem subF_preserves_nofirst (ri rj : Reg) (Tj : List Char) (TjT : List Char)
    (hTjC : Tj = '[' :: TjT)
    (Ai : Char → Bool) (hAi : RegAlph ri Ai) (hbrL : Ai '[' = false)
    (hmini : 1 ≤ minLen ri)
    (hmode : bndFree ri = true ∨
      ((∃ core, rj = .seq .bnd (.seq core .bnd)) ∧ LastIn ri isWordCh ∧
        FirstIn rj isWordCh))
    (s : List Char) (pw : Bool) (hnone : reFirst ri pw s = none) :
    reFirst ri pw (subF rj Tj pw s) = none := by
  have hends : matchEnds ri pw s = [] := by
    rwa [reFirst, List.head?_eq_none_iff] at hnone
  rw [reFirst, List.head?_eq_none_iff]
  by_contra hne
  obtain ⟨n, hn⟩ : ∃ n, n ∈ matchEnds ri pw (subF rj Tj pw s) :=
    List.exists_mem_of_ne_nil _ hne
  obtain ⟨resPre, t3, hsplit, hcase⟩ := subF_headDec rj Tj s pw
  rcases hcase with ⟨ht3, hout⟩ | ⟨l, hM, hout⟩
  · subst ht3
    rw [List.append_nil] at hsplit
    rw [hout, ← hsplit, hends] at hn
    exact absurd hn (List.not_mem_nil n)
  · rw [hout] at hn
    set tl := subF rj Tj (wAt (wEnd pw resPre) t3 (l + 1)) (t3.drop (l + 1)) with htl
    have hminn : 1 ≤ n := le_trans hmini (matchEnds_minLen ri pw _ n hn)
    rcases lt_trichotomy n resPre.length with hlt | heq | hgt
    · have hdropne : resPre.drop n ≠ [] := by
        intro hd
        have := congrArg List.length hd
        simp only [List.length_drop, List.length_nil] at this
        omega
      have htr : n ∈ matchEnds ri pw (resPre.take n ++ (resPre.drop n ++ t3)) := by
        refine matchEnds_transfer ri pw (resPre.take n) (resPre.drop n ++ (Tj ++ tl))
          (resPre.drop n ++ t3) n ?_ ?_ ?_
        · rw [← List.append_assoc, List.take_append_drop]
          exact hn
        · rw [List.length_take]
          omega
        · intro _
          rw [headW_append_ne _ _ hdropne, headW_append_ne _ _ hdropne]
      rw [← List.append_assoc, List.take_append_drop, ← hsplit, hends] at htr
      exact absurd htr (List.not_mem_nil n)
    · rcases hmode with hfree | ⟨⟨core, rfl⟩, hlasti, hfirstj⟩
      · have htr : n ∈ matchEnds ri pw (resPre ++ t3) :=
          matchEnds_bndFree_transfer ri hfree pw pw resPre _ t3 n hn (by omega)
        rw [← hsplit, hends] at htr
        exact absurd htr (List.not_mem_nil n)
      · have hMmem : (l + 1) ∈ matchEnds (.seq .bnd (.seq core .bnd)) (wEnd pw resPre) t3 :=
          head?_some_mem _ _ hM
        have hleft := matchEnds_seqBnd_left core (wEnd pw resPre) t3 (l + 1) hMmem
        have hh3 : headW t3 = true := by
          rcases matchEnds_firstIn _ isWordCh hfirstj _ t3 (l + 1) hMmem (by omega) with
            ⟨c, hc, hw⟩
          exact headW_true_of_head? t3 c hc hw
        have hwend : wEnd pw resPre = false := by
          cases hv : wEnd pw resPre
          · rfl
          · rw [hv, hh3] at hleft
            exact absurd rfl hleft
        rcases matchEnds_lastIn ri isWordCh hlasti pw _ n hn hminn with ⟨c, hc, hw⟩
        rw [take_append_le n resPre _ (by omega), heq, List.take_length] at hc
        have := wEnd_getLast pw resPre c hc
        rw [hwend, hw] at this
        cases this
    · have hbr : ('[' : Char) ∈ (resPre ++ (Tj ++
          subF rj Tj (wAt (wEnd pw resPre) t3 (l + 1)) (t3.drop (l + 1)))).take n := by
        rw [take_append_ge _ _ _ (by omega)]
        refine List.mem_append.mpr (Or.inr ?_)
        rw [hTjC]
        have hpos : 1 ≤ n - resPre.length := by omega
        cases hnr : n - resPre.length with
        | zero => omega
        | succ m => simp
      have := matchEnds_alph ri Ai hAi pw _ n hn '[' hbr
      rw [hbrL] at this
      cases this

theorem wAt_take_getLast (pw : Bool) :
    ∀ (s : List Char) (k : Nat) (c : Char), k + 1 ≤ s.length →
    (s.take (k + 1)).getLast? = some c → wAt pw s (k + 1) = isWordCh c := by
  intro s
  induction s generalizing pw with
  | nil =>
    intro k c h
    simp at h
  | cons d rest ih =>
    intro k c h hg
    cases k with
    | zero =>
      have : d = c := by simpa using hg
      subst this
      rfl
    | succ m =>
      simp only [List.length_cons] at h
      have hrest : m + 1 ≤ rest.length := by omega
      have htk : rest.take (m + 1) ≠ [] := by
        intro hemp
        have := congrArg List.length hemp
        simp only [List.length_take, List.length_nil] at this
        omega
      have hg' : (rest.take (m + 1)).getLast? = some c := by
        rw [List.take_succ_cons] at hg
        cases hh : rest.take (m + 1) with
        | nil => exact absurd hh htk
        | cons e t' =>
          rw [hh] at hg
          rw [List.getLast?_cons_cons] at hg
          exact hg
      have := ih (isWordCh d) m c hrest hg'
      rw [wAt_succ] at this ⊢
      rw [show (d :: rest).drop (m + 1) = rest.drop m from rfl]
      exact this

theorem subF_headW_false (r : Reg) (T TT : List Char) (hTC : T = '[' :: TT)
    (t : List Char) (pw : Bool) (ht : headW t = false) :
    headW (subF r T pw t) = false := by
  cases t with
  | nil => rfl
  | cons c rest =>
    by_cases hm : ∀ l, reFirst r pw (c :: rest) ≠ some (l + 1)
    · rw [subF_cons_nomatch r T pw c rest hm]
      exact ht
    · push_neg at hm
      obtain ⟨l, hl⟩ := hm
      rw [subF_cons_match r T pw c rest l hl, hTC]
      rfl

theorem reFirst_none_of_nosucc (r : Reg) (hmin : 1 ≤ minLen r) (pw : Bool) (s : List Char)
    (h : ∀ l, reFirst r pw s ≠ some (l + 1)) : reFirst r pw s = none := by
  cases hf : reFirst r pw s with
  | none => rfl
  | some l =>
    cases l with
    | zero =>
      have hmem := head?_some_mem _ _ hf
      have := matchEnds_minLen r pw s 0 hmem
      omega
    | succ l' => exact absurd hf (h l')

/-- Self-application: after one substitution pass of `r`, the text has no
`r`-match left. -/
theorem countF_subF_self (r : Reg) (T TT : List Char) (hTC : T = '[' :: TT)
    (A W : Char → Bool) (hA : RegAlph r A) (hbrL : A '[' = false) (hbrR : A ']' = false)
    (hW : MustWit r W) (hmin : 1 ≤ minLen r)
    (hmode : bndFree r = true ∨
      ((∃ core, r = .seq .bnd (.seq core .bnd)) ∧ FirstIn r isWordCh ∧ LastIn r isWordCh))
    (hWtok : ∀ c ∈ T, W c = false) (hTL : T.getLast? = some ']') :
    ∀ n s pw, s.length ≤ n → countF r pw (subF r T pw s) = 0 := by
  intro n
  induction n with
  | zero =>
    intro s pw h
    have hs : s = [] := List.length_eq_zero.mp (by omega)
    subst hs
    rfl
  | succ m ih =>
    intro s pw hlen
    cases s with
    | nil => rfl
    | cons c rest =>
      simp only [List.length_cons] at hlen
      by_cases hm : ∀ l, reFirst r pw (c :: rest) ≠ some (l + 1)
      · have hnone : reFirst r pw (c :: rest) = none := reFirst_none_of_nosucc r hmin pw _ hm
        have hmode1 : bndFree r = true ∨
            ((∃ core, r = .seq .bnd (.seq core .bnd)) ∧ LastIn r isWordCh ∧
              FirstIn r isWordCh) := by
          rcases hmode with hfree | ⟨hsh, hfi, hla⟩
          · exact Or.inl hfree
          · exact Or.inr ⟨hsh, hla, hfi⟩
        have hpres := subF_preserves_nofirst r r T TT hTC A hA hbrL hmin hmode1
          (c :: rest) pw hnone
        have hout := subF_cons_nomatch r T pw c rest hm
        rw [hout] at hpres
        rw [hout, countF_cons_nomatch r pw c _ (fun l hl => by rw [hpres] at hl; cases hl)]
        exact ih rest (isWordCh c) (by omega)
      · push_neg at hm
        obtain ⟨l, hl⟩ := hm
        rw [subF_cons_match r T pw c rest l hl]
        rw [countF_token_walk r A W hA hbrR hW T _ pw (by rw [hTC]; simp) hWtok hTL]
        have hih := ih (rest.drop l) (wAt pw (c :: rest) (l + 1))
          (by rw [List.length_drop]; omega)
        by_cases hfree : bndFree r = true
        · rw [countF_pw_of_bndFree r hfree _ false (wAt pw (c :: rest) (l + 1))]
          exact hih
        · have hmode2 := hmode.resolve_left hfree
          obtain ⟨⟨core, hshape⟩, hfirst, hlast⟩ := hmode2
          have hmem : (l + 1) ∈ matchEnds r pw (c :: rest) := head?_some_mem _ _ hl
          have hmem' := hmem
          rw [hshape] at hmem'
          have hright := matchEnds_seqBnd_right core pw (c :: rest) (l + 1) hmem'
          have hlen1 := matchEnds_le_length r pw (c :: rest) (l + 1) hmem
          rcases matchEnds_lastIn r isWordCh hlast pw (c :: rest) (l + 1) hmem (by omega)
            with ⟨cl, hcl, hwl⟩
          have hpw2 : wAt pw (c :: rest) (l + 1) = true := by
            rw [wAt_take_getLast pw (c :: rest) l cl (by simpa using hlen1) hcl]
            exact hwl
          have ht2 : headW ((c :: rest).drop (l + 1)) = false := by
            cases hv : headW ((c :: rest).drop (l + 1))
            · rfl
            · rw [hpw2, hv] at hright
              exact absurd rfl hright
          have hhead : headW (subF r T (wAt pw (c :: rest) (l + 1)) (rest.drop l)) = false :=
            subF_headW_false r T TT hTC (rest.drop l) _
              (by rw [show (c :: rest).drop (l + 1) = rest.drop l from rfl] at ht2; exact ht2)
          rw [countF_pw_of_nohead r hfirst hmin _ hhead false (wAt pw (c :: rest) (l + 1))]
          exact hih

/-- Cross-application: substituting a later catalog pattern `rj` preserves
the absence of `ri`-matches. -/
theorem countF_subF_other (ri rj : Reg) (Tj TjT : List Char) (hTC : Tj = '[' :: TjT)
    (Ai Wi : Char → Bool)
    (hAi : RegAlph ri Ai) (hbrLi : Ai '[' = false) (hbrRi : Ai ']' = false)
    (hWi : MustWit ri Wi) (hmini : 1 ≤ minLen ri)
    (hmodei : bndFree ri = true ∨
      ((∃ core, ri = .seq .bnd (.seq core .bnd)) ∧ FirstIn ri isWordCh ∧ LastIn ri isWordCh))
    (hmodej : bndFree ri = true ∨
      ((∃ core, rj = .seq .bnd (.seq core .bnd)) ∧ FirstIn rj isWordCh ∧ LastIn rj isWordCh))
    (hWitok : ∀ c ∈ Tj, Wi c = false) (hTL : Tj.getLast? = some ']') :
    ∀ n s pw, s.length ≤ n → countF ri pw s = 0 →
    countF ri pw (subF rj Tj pw s) = 0 := by
  intro n
  induction n with
  | zero =>
    intro s pw h _
    have hs : s = [] := List.length_eq_zero.mp (by omega)
    subst hs
    rfl
  | succ m ih =>
    intro s pw hlen hcnt
    cases s with
    | nil => rfl
    | cons c rest =>
      simp only [List.length_cons] at hlen
      obtain ⟨hnmi, htaili⟩ := countF_zero_cons ri pw c rest hcnt
      have hnonei : reFirst ri pw (c :: rest) = none := reFirst_none_of_nosucc ri hmini pw _ hnmi
      by_cases hmj : ∀ l, reFirst rj pw (c :: rest) ≠ some (l + 1)
      · have hmode1 : bndFree ri = true ∨
            ((∃ core, rj = .seq .bnd (.seq core .bnd)) ∧ LastIn ri isWordCh ∧
              FirstIn rj isWordCh) := by
          by_cases hfree : bndFree ri = true
          · exact Or.inl hfree
          · obtain ⟨_, hfi, hla⟩ := hmodei.resolve_left hfree
            obtain ⟨hshj, hfj, _⟩ := hmodej.resolve_left hfree
            exact Or.inr ⟨hshj, hla, hfj⟩
        have hpres := subF_preserves_nofirst ri rj Tj TjT hTC Ai hAi hbrLi hmini hmode1
          (c :: rest) pw hnonei
        have hout := subF_cons_nomatch rj Tj pw c rest hmj
        rw [hout] at hpres
        rw [hout, countF_cons_nomatch ri pw c _ (fun l hl => by rw [hpres] at hl; cases hl)]
        exact ih rest (isWordCh c) (by omega) htaili
      · push_neg at hmj
        obtain ⟨l, hl⟩ := hmj
        rw [subF_cons_match rj Tj pw c rest l hl]
        rw [countF_token_walk ri Ai Wi hAi hbrRi hWi Tj _ pw (by rw [hTC]; simp) hWitok hTL]
        have hcnt2 : countF ri (wAt pw (c :: rest) (l + 1)) ((c :: rest).drop (l + 1)) = 0 :=
          countF_zero_drop ri pw (c :: rest) hcnt (l + 1)
        rw [show (c :: rest).drop (l + 1) = rest.drop l from rfl] at hcnt2
        have hih := ih (rest.drop l) (wAt pw (c :: rest) (l + 1))
          (by rw [List.length_drop]; omega) hcnt2
        by_cases hfree : bndFree ri = true
        · rw [countF_pw_of_bndFree ri hfree _ false (wAt pw (c :: rest) (l + 1))]
          exact hih
        · obtain ⟨_, hfi, _⟩ := hmodei.resolve_left hfree
          obtain ⟨⟨corej, hshapej⟩, _, hlastj⟩ := hmodej.resolve_left hfree
          have hmem : (l + 1) ∈ matchEnds rj pw (c :: rest) := head?_some_mem _ _ hl
          have hmem' := hmem
          rw [hshapej] at hmem'
          have hright := matchEnds_seqBnd_right corej pw (c :: rest) (l + 1) hmem'
          have hlen1 := matchEnds_le_length rj pw (c :: rest) (l + 1) hmem
          rcases matchEnds_lastIn rj isWordCh hlastj pw (c :: rest) (l + 1) hmem (by omega)
            with ⟨cl, hcl, hwl⟩
          have hpw2 : wAt pw (c :: rest) (l + 1) = true := by
            rw [wAt_take_getLast pw (c :: rest) l cl (by simpa using hlen1) hcl]
            exact hwl
          have ht2 : headW ((c :: rest).drop (l + 1)) = false := by
            cases hv : headW ((c :: rest).drop (l + 1))
            · rfl
            · rw [hpw2, hv] at hright
              exact absurd rfl hright
          have hhead : headW (subF rj Tj (wAt pw (c :: rest) (l + 1)) (rest.drop l)) = false :=
            subF_headW_false rj Tj TjT hTC (rest.drop l) _
              (by rw [show (c :: rest).drop (l + 1) = rest.drop l from rfl] at ht2; exact ht2)
          rw [countF_pw_of_nohead ri hfi hmini _ hhead false (wAt pw (c :: rest) (l + 1))]
          exact hih

/-! ## Per-pattern facts for the idempotence argument (C4) -/

theorem noBrk_of_class (p : Char → Bool) (h1 : p '[' = false) (h2 : p ']' = false) :
    ∀ c, p c = true → noBrk c = true := by
  intro c hc
  by_cases e1 : c = '['
  · subst e1
    rw [h1] at hc
    exact (Bool.false_ne_true hc).elim
  · by_cases e2 : c = ']'
    · subst e2
      rw [h2] at hc
      exact (Bool.false_ne_true hc).elim
    · simp [noBrk, e1, e2]

theorem word_of_digit : ∀ c, isAsciiDigitCh c = true → isWordCh c = true := by
  intro c hc
  simp [isWordCh, hc]

theorem word_of_hex : ∀ c, isHexCh c = true → isWordCh c = true := by
  intro c hc
  simp only [isHexCh, Bool.or_eq_true] at hc
  rcases hc with (h | h) | h
  · exact word_of_digit c h
  · rw [Bool.and_eq_true, decide_eq_true_eq, decide_eq_true_eq] at h
    have d2 : c ≤ 'z' := le_trans h.2 (by decide)
    simp [isWordCh, isAsciiAlphaCh, h.1, d2]
  · rw [Bool.and_eq_true, decide_eq_true_eq, decide_eq_true_eq] at h
    have d2 : c ≤ 'Z' := le_trans h.2 (by decide)
    simp [isWordCh, isAsciiAlphaCh, h.1, d2]

theorem word_of_chr (d : Char) (hd : isWordCh d = true) :
    ∀ c, decide (c = d) = true → isWordCh c = true := by
  intro c h
  rw [of_decide_eq_true h]
  exact hd

theorem digit_of_chr (d : Char) (hd : isAsciiDigitCh d = true) :
    ∀ c, decide (c = d) = true → isAsciiDigitCh c = true := by
  intro c h
  rw [of_decide_eq_true h]
  exact hd

theorem emailReg_alph : RegAlph emailReg noBrk := by
  simp only [emailReg, chr, RegAlph]
  repeat' apply And.intro
  all_goals exact noBrk_of_class _ (by decide) (by decide)

theorem phoneReg_alph : RegAlph phoneReg noBrk := by
  simp only [phoneReg, repN, chr, RegAlph]
  repeat' apply And.intro
  all_goals exact noBrk_of_class _ (by decide) (by decide)

theorem ssnReg_alph : RegAlph ssnReg noBrk := by
  simp only [ssnReg, ssnCore, repN, chr, RegAlph]
  repeat' apply And.intro
  all_goals first
  | trivial
  | exact noBrk_of_class _ (by decide) (by decide)

theorem ccReg_alph : RegAlph ccReg noBrk := by
  simp only [ccReg, ccCore, repN, chr, RegAlph]
  repeat' apply And.intro
  all_goals first
  | trivial
  | exact noBrk_of_class _ (by decide) (by decide)

theorem ccfReg_alph : RegAlph ccfReg noBrk := by
  simp only [ccfReg, ccfCore, repN, chr, RegAlph]
  repeat' apply And.intro
  all_goals first
  | trivial
  | exact noBrk_of_class _ (by decide) (by decide)

theorem ipv4Reg_alph : RegAlph ipv4Reg noBrk := by
  simp only [ipv4Reg, ipv4Core, repN, chr, RegAlph]
  repeat' apply And.intro
  all_goals first
  | trivial
  | exact noBrk_of_class _ (by decide) (by decide)

theorem ipv6Reg_alph : RegAlph ipv6Reg noBrk := by
  simp only [ipv6Reg, ipv6Core, hexGrp, repN, chr, RegAlph]
  repeat' apply And.intro
  all_goals first
  | trivial
  | exact noBrk_of_class _ (by decide) (by decide)

theorem emailReg_wit : MustWit emailReg atWit :=
  Or.inr (Or.inl (fun _ h => h))

theorem phoneReg_wit : MustWit phoneReg isAsciiDigitCh :=
  Or.inr (Or.inr (Or.inl ⟨by decide, fun _ h => h⟩))

theorem ssnReg_wit : MustWit ssnReg isAsciiDigitCh :=
  Or.inr (Or.inl (Or.inl ⟨by decide, fun _ h => h⟩))

theorem ccReg_wit : MustWit ccReg isAsciiDigitCh :=
  Or.inr (Or.inl ⟨Or.inl (digit_of_chr '4' (by decide)),
    Or.inl (digit_of_chr '5' (by decide)),
    Or.inl (digit_of_chr '3' (by decide)),
    Or.inl (digit_of_chr '6' (by decide))⟩)

theorem ccfReg_wit : MustWit ccfReg isAsciiDigitCh :=
  Or.inr (Or.inl (Or.inl ⟨Or.inl (digit_of_chr '4' (by decide)),
    Or.inl (digit_of_chr '5' (by decide)),
    Or.inl (digit_of_chr '3' (by decide)),
    Or.inl (digit_of_chr '6' (by decide))⟩))

theorem ipv4Reg_wit : MustWit ipv4Reg isAsciiDigitCh :=
  Or.inr (Or.inl (Or.inl (Or.inl ⟨by decide, fun _ h => h⟩)))

theorem ipv6Reg_wit : MustWit ipv6Reg colonWit :=
  Or.inr (Or.inl (Or.inl (Or.inr (fun _ h => h))))

theorem ssnReg_first : FirstIn ssnReg isWordCh :=
  ⟨True.intro, fun _ => ⟨⟨word_of_digit, fun h => absurd h (by decide)⟩,
    fun _ => True.intro⟩⟩

theorem ssnReg_last : LastIn ssnReg isWordCh :=
  ⟨fun _ => True.intro,
   fun _ => ⟨fun h => absurd h (by decide),
     fun h => absurd h (by decide),
     fun h => absurd h (by decide),
     fun h => absurd h (by decide),
     word_of_digit⟩,
   True.intro⟩

theorem ccReg_first : FirstIn ccReg isWordCh :=
  ⟨True.intro, fun _ =>
    ⟨⟨⟨word_of_chr '4' (by decide), fun h => absurd h (by decide)⟩,
      ⟨word_of_chr '5' (by decide), fun h => absurd h (by decide)⟩,
      ⟨word_of_chr '3' (by decide), fun h => absurd h (by decide)⟩,
      ⟨word_of_chr '6' (by decide), fun h => absurd h (by decide)⟩⟩,
     fun _ => True.intro⟩⟩

theorem ccReg_last : LastIn ccReg isWordCh :=
  ⟨fun _ => True.intro,
   fun _ =>
    ⟨⟨fun h => absurd h (by decide), fun _ => word_of_digit, word_of_digit⟩,
     ⟨fun h => absurd h (by decide), fun h => absurd h (by decide), word_of_digit⟩,
     ⟨fun h => absurd h (by decide), fun h => absurd h (by decide), word_of_digit⟩,
     ⟨fun h => absurd h (by decide), fun h => absurd h (by decide), word_of_digit⟩⟩,
   True.intro⟩

theorem ccfReg_first : FirstIn ccfReg isWordCh :=
  ⟨True.intro, fun _ =>
    ⟨⟨⟨⟨word_of_chr '4' (by decide), fun h => absurd h (by decide)⟩,
       ⟨word_of_chr '5' (by decide), fun h => absurd h (by decide)⟩,
       ⟨word_of_chr '3' (by decide), fun h => absurd h (by decide)⟩,
       ⟨word_of_chr '6' (by decide), fun h => absurd h (by decide)⟩⟩,
      fun h => absurd h (by decide)⟩,
     fun _ => True.intro⟩⟩

theorem ccfReg_last : LastIn ccfReg isWordCh :=
  ⟨fun _ => True.intro,
   fun _ =>
    ⟨fun h => absurd h (by decide),
     fun h => absurd h (by decide),
     fun h => absurd h (by decide),
     fun h => absurd h (by decide),
     fun h => absurd h (by decide),
     fun h => absurd h (by decide),
     word_of_digit⟩,
   True.intro⟩

theorem ipv4Reg_first : FirstIn ipv4Reg isWordCh :=
  ⟨True.intro, fun _ =>
    ⟨⟨⟨word_of_digit, fun h => absurd h (by decide)⟩,
      fun h => absurd h (by decide)⟩,
     fun _ => True.intro⟩⟩

theorem ipv4Reg_last : LastIn ipv4Reg isWordCh :=
  ⟨fun _ => True.intro,
   fun _ =>
    ⟨fun h => absurd h (by decide),
     fun h => absurd h (by decide),
     fun h => absurd h (by decide),
     word_of_digit⟩,
   True.intro⟩

theorem ipv6Reg_first : FirstIn ipv6Reg isWordCh :=
  ⟨True.intro, fun _ =>
    ⟨⟨⟨word_of_hex, fun h => absurd h (by decide)⟩,
      fun h => absurd h (by decide)⟩,
     fun _ => True.intro⟩⟩

theorem ipv6Reg_last : LastIn ipv6Reg isWordCh :=
  ⟨fun _ => True.intro,
   fun _ =>
    ⟨fun h => absurd h (by decide),
     fun h => absurd h (by decide),
     fun h => absurd h (by decide),
     fun h => absurd h (by decide),
     fun h => absurd h (by decide),
     fun h => absurd h (by decide),
     fun h => absurd h (by decide),
     word_of_hex⟩,
   True.intro⟩

theorem emailGood : PatGood ⟨"email", emailReg, "[EMAIL_REDACTED]"⟩ atWit :=
  ⟨emailReg_alph, emailReg_wit, by decide, Or.inl rfl, by decide,
   ⟨"EMAIL_REDACTED]".toList, by decide⟩, by decide, by decide⟩

theorem phoneGood : PatGood ⟨"phone", phoneReg, "[PHONE_REDACTED]"⟩ isAsciiDigitCh :=
  ⟨phoneReg_alph, phoneReg_wit, by decide, Or.inl rfl, by decide,
   ⟨"PHONE_REDACTED]".toList, by decide⟩, by decide, by decide⟩

theorem ssnGood : PatGood ⟨"ssn", ssnReg, "[SSN_REDACTED]"⟩ isAsciiDigitCh :=
  ⟨ssnReg_alph, ssnReg_wit, by decide,
   Or.inr ⟨⟨ssnCore, rfl⟩, ssnReg_first, ssnReg_last⟩, by decide,
   ⟨"SSN_REDACTED]".toList, by decide⟩, by decide, by decide⟩

theorem ccGood : PatGood ⟨"credit_card", ccReg, "[CC_REDACTED]"⟩ isAsciiDigitCh :=
  ⟨ccReg_alph, ccReg_wit, by decide,
   Or.inr ⟨⟨ccCore, rfl⟩, ccReg_first, ccReg_last⟩, by decide,
   ⟨"CC_REDACTED]".toList, by decide⟩, by decide, by decide⟩

theorem ccfGood : PatGood ⟨"credit_card_formatted", ccfReg, "[CC_REDACTED]"⟩ isAsciiDigitCh :=
  ⟨ccfReg_alph, ccfReg_wit, by decide,
   Or.inr ⟨⟨ccfCore, rfl⟩, ccfReg_first, ccfReg_last⟩, by decide,
   ⟨"CC_REDACTED]".toList, by decide⟩, by decide, by decide⟩

theorem ipv4Good : PatGood ⟨"ip_v4", ipv4Reg, "[IP_REDACTED]"⟩ isAsciiDigitCh :=
  ⟨ipv4Reg_alph, ipv4Reg_wit, by decide,
   Or.inr ⟨⟨ipv4Core, rfl⟩, ipv4Reg_first, ipv4Reg_last⟩, by decide,
   ⟨"IP_REDACTED]".toList, by decide⟩, by decide, by decide⟩

theorem ipv6Good : PatGood ⟨"ip_v6", ipv6Reg, "[IP_REDACTED]"⟩ colonWit :=
  ⟨ipv6Reg_alph, ipv6Reg_wit, by decide,
   Or.inr ⟨⟨ipv6Core, rfl⟩, ipv6Reg_first, ipv6Reg_last⟩, by decide,
   ⟨"IP_REDACTED]".toList, by decide⟩, by decide, by decide⟩

theorem pii_all_good : ∀ p ∈ PII_PATTERNS, ∃ W, PatGood p W := by
  intro p hp
  simp only [PII_PATTERNS, List.mem_cons, List.not_mem_nil, or_false] at hp
  rcases hp with rfl | rfl | rfl | rfl | rfl | rfl | rfl
  · exact ⟨atWit, emailGood⟩
  · exact ⟨isAsciiDigitCh, phoneGood⟩
  · exact ⟨isAsciiDigitCh, ssnGood⟩
  · exact ⟨isAsciiDigitCh, ccGood⟩
  · exact ⟨isAsciiDigitCh, ccfGood⟩
  · exact ⟨isAsciiDigitCh, ipv4Good⟩
  · exact ⟨colonWit, ipv6Good⟩

theorem modeOK_to_ssn (ri : Reg) : ModeOK ri ssnReg :=
  Or.inr ⟨⟨ssnCore, rfl⟩, ssnReg_first, ssnReg_last⟩

theorem modeOK_to_cc (ri : Reg) : ModeOK ri ccReg :=
  Or.inr ⟨⟨ccCore, rfl⟩, ccReg_first, ccReg_last⟩

theorem modeOK_to_ccf (ri : Reg) : ModeOK ri ccfReg :=
  Or.inr ⟨⟨ccfCore, rfl⟩, ccfReg_first, ccfReg_last⟩

theorem modeOK_to_ipv4 (ri : Reg) : ModeOK ri ipv4Reg :=
  Or.inr ⟨⟨ipv4Core, rfl⟩, ipv4Reg_first, ipv4Reg_last⟩

theorem modeOK_to_ipv6 (ri : Reg) : ModeOK ri ipv6Reg :=
  Or.inr ⟨⟨ipv6Core, rfl⟩, ipv6Reg_first, ipv6Reg_last⟩

theorem modeOK_chain : List.Pairwise (fun a b => ModeOK a.reg b.reg) PII_PATTERNS := by
  simp only [PII_PATTERNS]
  refine List.Pairwise.cons ?_ (List.Pairwise.cons ?_ (List.Pairwise.cons ?_
    (List.Pairwise.cons ?_ (List.Pairwise.cons ?_ (List.Pairwise.cons ?_
      (List.Pairwise.cons ?_ List.Pairwise.nil))))))
  · intro b _
    exact Or.inl rfl
  · intro b hb
    simp only [List.mem_cons, List.not_mem_nil, or_false] at hb
    rcases hb with rfl | rfl | rfl | rfl | rfl
    · exact modeOK_to_ssn _
    · exact modeOK_to_cc _
    · exact modeOK_to_ccf _
    · exact modeOK_to_ipv4 _
    · exact modeOK_to_ipv6 _
  · intro b hb
    simp only [List.mem_cons, List.not_mem_nil, or_false] at hb
    rcases hb with rfl | rfl | rfl | rfl
    · exact modeOK_to_cc _
    · exact modeOK_to_ccf _
    · exact modeOK_to_ipv4 _
    · exact modeOK_to_ipv6 _
  · intro b hb
    simp only [List.mem_cons, List.not_mem_nil, or_false] at hb
    rcases hb with rfl | rfl | rfl
    · exact modeOK_to_ccf _
    · exact modeOK_to_ipv4 _
    · exact modeOK_to_ipv6 _
  · intro b hb
    simp only [List.mem_cons, List.not_mem_nil, or_false] at hb
    rcases hb with rfl | rfl
    · exact modeOK_to_ipv4 _
    · exact modeOK_to_ipv6 _
  · intro b hb
    simp only [List.mem_cons, List.not_mem_nil, or_false] at hb
    rcases hb with rfl
    exact modeOK_to_ipv6 _
  · intro b hb
    exact absurd hb (List.not_mem_nil b)

/-! ## Assembly of the idempotence theorem (C4) -/

theorem reSub_eq_subF (r : Reg) (T s : List Char) : reSub r T s = subF r T false s := rfl

theorem reCount_eq_countF (r : Reg) (s : List Char) : reCount r s = countF r false s := rfl

theorem countF_subAll_of_zero (ri : Reg) (Wi : Char → Bool)
    (hAi : RegAlph ri noBrk) (hWi : MustWit ri Wi) (hmini : 1 ≤ minLen ri)
    (hmodei : bndFree ri = true ∨
      ((∃ core, ri = .seq .bnd (.seq core .bnd)) ∧
        FirstIn ri isWordCh ∧ LastIn ri isWordCh))
    (hWtoki : ∀ c ∈ allTokenChars, Wi c = false) :
    ∀ (ps : List PiiPattern), (∀ p ∈ ps, ∃ W, PatGood p W) →
      (∀ p ∈ ps, ModeOK ri p.reg) →
      ∀ t, countF ri false t = 0 → countF ri false (subAll ps t) = 0 := by
  intro ps
  induction ps with
  | nil =>
    intro _ _ t h
    exact h
  | cons p tl ih =>
    intro hgood hmode t h
    obtain ⟨W, hg⟩ := hgood p (List.mem_cons_self p tl)
    obtain ⟨TT, hTT⟩ := hg.htokH
    show countF ri false (subAll tl (reSub p.reg p.repl.toList t)) = 0
    apply ih (fun q hq => hgood q (List.mem_cons_of_mem _ hq))
      (fun q hq => hmode q (List.mem_cons_of_mem _ hq))
    rw [reSub_eq_subF]
    exact countF_subF_other ri p.reg p.repl.toList TT hTT noBrk Wi hAi (by decide)
      (by decide) hWi hmini hmodei (hmode p (List.mem_cons_self p tl))
      (fun c hc => hWtoki c (hg.htokSub c hc)) hg.htokL t.length t false le_rfl h

theorem countF_subAll_all (ps : List PiiPattern)
    (hgood : ∀ p ∈ ps, ∃ W, PatGood p W)
    (hchain : List.Pairwise (fun a b => ModeOK a.reg b.reg) ps) :
    ∀ t, ∀ p ∈ ps, countF p.reg false (subAll ps t) = 0 := by
  induction ps with
  | nil =>
    intro t p hp
    exact absurd hp (List.not_mem_nil p)
  | cons q tl ih =>
    intro t p hp
    rcases List.mem_cons.mp hp with rfl | hp'
    · obtain ⟨W, hg⟩ := hgood p (List.mem_cons_self p tl)
      obtain ⟨TT, hTT⟩ := hg.htokH
      have h0 : countF p.reg false (subF p.reg p.repl.toList false t) = 0 :=
        countF_subF_self p.reg p.repl.toList TT hTT noBrk W hg.halph (by decide)
          (by decide) hg.hwit hg.hmin hg.hmode
          (fun c hc => hg.hWtok c (hg.htokSub c hc)) hg.htokL t.length t false le_rfl
      show countF p.reg false (subAll tl (reSub p.reg p.repl.toList t)) = 0
      exact countF_subAll_of_zero p.reg W hg.halph hg.hwit hg.hmin hg.hmode hg.hWtok tl
        (fun r hr => hgood r (List.mem_cons_of_mem _ hr))
        (fun r hr => (List.pairwise_cons.mp hchain).1 r hr)
        (reSub p.reg p.repl.toList t) (by rw [reSub_eq_subF]; exact h0)
    · show countF p.reg false (subAll tl (reSub q.reg q.repl.toList t)) = 0
      exact ih (fun r hr => hgood r (List.mem_cons_of_mem _ hr))
        (List.pairwise_cons.mp hchain).2 (reSub q.reg q.repl.toList t) p hp'

theorem subAll_of_zero (ps : List PiiPattern) :
    ∀ t, (∀ p ∈ ps, countF p.reg false t = 0) → subAll ps t = t := by
  induction ps with
  | nil =>
    intro t _
    rfl
  | cons p tl ih =>
    intro t hz
    show subAll tl (reSub p.reg p.repl.toList t) = t
    rw [reSub_eq_subF, subF_of_nocount p.reg p.repl.toList t false
      (hz p (List.mem_cons_self p tl))]
    exact ih t (fun q hq => hz q (List.mem_cons_of_mem _ hq))

theorem foldl_redactStep_fst (ps : List PiiPattern) :
    ∀ st : List Char × List String × List (String × Nat),
      (ps.foldl redactStep st).1 = subAll ps st.1 := by
  induction ps with
  | nil =>
    intro st
    rfl
  | cons p tl ih =>
    intro st
    rw [List.foldl_cons, ih]
    show subAll tl (redactStep st p).1 = subAll tl (reSub p.reg p.repl.toList st.1)
    by_cases h : 0 < reCount p.reg st.1
    · rw [redactStep, if_pos h]
    · rw [redactStep, if_neg h]
      have h0 : countF p.reg false st.1 = 0 := by
        rw [← reCount_eq_countF]
        omega
      rw [reSub_eq_subF, subF_of_nocount p.reg p.repl.toList st.1 false h0]

theorem toList_mk (l : List Char) : (String.mk l).toList = l := rfl

theorem redact_pii_none_eq (content : String) :
    redact_pii content none = redactRun PII_PATTERNS content := by
  rw [redact_pii]
  simp only [Option.getD_none, Bool.not_true, Bool.false_eq_true, if_false, patternsOf]

theorem redactRun_redacted (ps : List PiiPattern) (content : String) :
    (redactRun ps content).redacted = String.mk (subAll ps content.toList) := by
  show String.mk (ps.foldl redactStep (content.toList, [], [])).1 = _
  rw [foldl_redactStep_fst]

/-- C4: redaction is idempotent under the default configuration — running
`redact_pii` on the redacted text of a first run returns that text
unchanged: no replacement token, alone or joined with surrounding residual
text, matches any catalog pattern. -/
theorem redact_pii_idempotent (x : String) :
    (redact_pii ((redact_pii x none).redacted) none).redacted =
      (redact_pii x none).redacted := by
  rw [redact_pii_none_eq, redact_pii_none_eq, redactRun_redacted, redactRun_redacted,
    toList_mk]
  rw [subAll_of_zero PII_PATTERNS (subAll PII_PATTERNS x.toList)
    (fun p hp => countF_subAll_all PII_PATTERNS pii_all_good modeOK_chain x.toList p hp)]
